import Mathlib

/-!
Verification of the Nogger log server (src/server.js) against its
natural-language specification.

Text (request fields, file contents) is modelled as lists of characters.
The filesystem is modelled by the four log files the server ever writes
(app_logs.txt and the three per-type files); JavaScript builtins used by
the source (String.split, Array.slice, trim, JSON.stringify with indent 2,
JSON.parse, object spread) are given explicit executable models.
-/

set_option maxHeartbeats 1000000

namespace Nogger

/-- Text is modelled as a list of characters. -/
abbrev Str := List Char

/-- Whitespace characters recognised by JavaScript's trim (ASCII range). -/
def isWsChar (c : Char) : Bool :=
  c = ' ' || c = '\t' || c = '\n' || c = '\r' || c = '\x0b' || c = '\x0c'

/-- Model of String.prototype.trim. -/
def trimStr (s : Str) : Str :=
  ((s.dropWhile isWsChar).reverse.dropWhile isWsChar).reverse

/-- The filter callbacks in the source keep an entry iff its trim is nonempty. -/
def nonblank (s : Str) : Bool := !(trimStr s).isEmpty

/-- Model of Array.prototype.slice(-n): the last n elements (slice(-0) is the
whole array, as JavaScript negation of 0 yields 0). -/
def lastN (n : Nat) (l : List α) : List α :=
  if n = 0 then l else l.drop (l.length - n)

/-- The part of a string before the first occurrence of the separator, and
the part after it.  JavaScript String.split scans left to right for
non-overlapping occurrences; this returns the first one. -/
def firstSplit (d : Str) : Str → Option (Str × Str)
  | [] => none
  | c :: cs =>
    if d.isPrefixOf (c :: cs) then some ([], (c :: cs).drop d.length)
    else (firstSplit d cs).map (fun p => (c :: p.1, p.2))

/-- The split loop, with fuel bounding the number of separator occurrences
consumed (structural, so that concrete instances evaluate). -/
def splitGo (d : Str) : Nat → Str → List Str
  | 0, s => [s]
  | fuel + 1, s =>
    match firstSplit d s with
    | none => [s]
    | some (a, b) => if b.length < s.length then a :: splitGo d fuel b else [s]

/-- Model of String.prototype.split with a (nonempty) string separator. -/
def splitOnSeq (d : Str) (s : Str) : List Str := splitGo d s.length s

theorem firstSplit_append_eq {d s a b : Str} (h : firstSplit d s = some (a, b)) :
    s = a ++ d ++ b := by
  induction s generalizing a b with
  | nil => simp [firstSplit] at h
  | cons c cs ih =>
    by_cases hp : d.isPrefixOf (c :: cs)
    · obtain ⟨u, hu⟩ := (List.isPrefixOf_iff_prefix).1 hp
      have hdrop : (c :: cs).drop d.length = u := by
        rw [← hu]; exact List.drop_left d u
      rw [firstSplit, if_pos hp, hdrop] at h
      obtain ⟨ha, hb⟩ := Prod.mk.injEq .. ▸ Option.some.injEq .. ▸ h
      subst ha; subst hb
      simp [← hu]
    · rw [firstSplit, if_neg hp] at h
      cases hfs : firstSplit d cs with
      | none => rw [hfs] at h; simp at h
      | some p =>
        rw [hfs] at h
        simp only [Option.map_some', Option.some.injEq] at h
        obtain ⟨ha, hb⟩ := Prod.mk.injEq .. ▸ h
        subst ha; subst hb
        have := ih hfs
        simp [this]

theorem firstSplit_length_le {d s a b : Str} (h : firstSplit d s = some (a, b)) :
    a.length + d.length + b.length = s.length := by
  have := firstSplit_append_eq h
  subst this; simp; omega

theorem firstSplit_eq_none_iff {d s : Str} (hd : d ≠ []) :
    firstSplit d s = none ↔ ¬ d <:+: s := by
  induction s with
  | nil => simp [firstSplit, List.infix_nil, hd]
  | cons c cs ih =>
    rw [firstSplit]
    by_cases hp : d.isPrefixOf (c :: cs)
    · simp only [if_pos hp]
      constructor
      · intro h; simp at h
      · intro h
        exact absurd (((List.isPrefixOf_iff_prefix).1 hp).isInfix) h
    · simp only [if_neg hp, Option.map_eq_none', List.infix_cons_iff]
      rw [ih]
      constructor
      · rintro h (h1 | h2)
        · exact hp ((List.isPrefixOf_iff_prefix).2 h1)
        · exact h h2
      · intro h h2
        exact h (Or.inr h2)

theorem firstSplit_append_right {d s t a b : Str} (h : firstSplit d s = some (a, b)) :
    firstSplit d (s ++ t) = some (a, b ++ t) := by
  induction s generalizing a b with
  | nil => simp [firstSplit] at h
  | cons c cs ih =>
    by_cases hp : d.isPrefixOf (c :: cs)
    · obtain ⟨u, hu⟩ := (List.isPrefixOf_iff_prefix).1 hp
      have hdrop : (c :: cs).drop d.length = u := by
        rw [← hu]; exact List.drop_left d u
      rw [firstSplit, if_pos hp, hdrop] at h
      simp only [Option.some.injEq, Prod.mk.injEq] at h
      obtain ⟨ha, hb⟩ := h
      have hp2 : d.isPrefixOf ((c :: cs) ++ t) := by
        rw [List.isPrefixOf_iff_prefix]
        exact ⟨u ++ t, by rw [← List.append_assoc, hu]⟩
      have hdrop2 : ((c :: cs) ++ t).drop d.length = u ++ t := by
        rw [← hu, List.append_assoc]; exact List.drop_left d (u ++ t)
      rw [List.cons_append, firstSplit, ← List.cons_append, if_pos hp2, hdrop2,
        ← ha, ← hb]
    · rw [firstSplit, if_neg hp] at h
      cases hfs : firstSplit d cs with
      | none => rw [hfs] at h; simp at h
      | some p =>
        rw [hfs] at h
        simp only [Option.map_some', Option.some.injEq] at h
        have hlen : d.length ≤ cs.length := by
          have := firstSplit_length_le (a := p.1) (b := p.2) (by rw [hfs])
          omega
        have hp2 : ¬ d.isPrefixOf ((c :: cs) ++ t) := by
          intro hc
          apply hp
          rw [List.isPrefixOf_iff_prefix] at hc ⊢
          have h1 : d = ((c :: cs) ++ t).take d.length := List.prefix_iff_eq_take.1 hc
          have h2 : ((c :: cs) ++ t).take d.length = (c :: cs).take d.length :=
            List.take_append_of_le_length (by simp only [List.length_cons]; omega)
          exact List.prefix_iff_eq_take.2 (h1.trans h2)
        rw [List.cons_append, firstSplit, ← List.cons_append, if_neg hp2]
        have hih := ih (a := p.1) (b := p.2) (by rw [hfs])
        rw [hih]
        simp only [Option.map_some', Option.some.injEq]
        have h1 : c :: p.1 = a := congrArg Prod.fst h
        have h2 : p.2 = b := congrArg Prod.snd h
        rw [← h1, ← h2]

theorem splitGo_congr (d : Str) : ∀ (f1 f2 : Nat) (s : Str),
    s.length ≤ f1 → s.length ≤ f2 → splitGo d f1 s = splitGo d f2 s := by
  intro f1
  induction f1 with
  | zero =>
    intro f2 s h1 h2
    have hs : s = [] := List.eq_nil_of_length_eq_zero (Nat.le_zero.1 h1)
    subst hs
    cases f2 with
    | zero => rfl
    | succ m => simp [splitGo, show firstSplit d ([] : Str) = none from rfl]
  | succ n ih =>
    intro f2 s h1 h2
    cases hfs : firstSplit d s with
    | none =>
      cases f2 with
      | zero =>
        have hs : s = [] := List.eq_nil_of_length_eq_zero (Nat.le_zero.1 h2)
        subst hs
        simp [splitGo, show firstSplit d ([] : Str) = none from rfl]
      | succ m => simp [splitGo, hfs]
    | some p =>
      obtain ⟨a, b⟩ := p
      have hs1 : 1 ≤ s.length := by
        cases s with
        | nil => cases hfs
        | cons c cs => simp
      cases f2 with
      | zero => omega
      | succ m =>
        simp only [splitGo, hfs]
        by_cases hlt : b.length < s.length
        · rw [if_pos hlt, if_pos hlt]
          exact congrArg _ (ih m b (by omega) (by omega))
        · rw [if_neg hlt, if_neg hlt]

theorem splitOnSeq_of_none {d s : Str} (h : firstSplit d s = none) :
    splitOnSeq d s = [s] := by
  rw [splitOnSeq]
  cases s with
  | nil => rfl
  | cons c cs => simp [splitGo, h]

theorem splitOnSeq_cons {d s a b : Str} (hd : d ≠ []) (h : firstSplit d s = some (a, b)) :
    splitOnSeq d s = a :: splitOnSeq d b := by
  have hlen := firstSplit_length_le h
  have hdl : 0 < d.length := List.length_pos.2 hd
  have hlt : b.length < s.length := by omega
  rw [splitOnSeq, splitOnSeq]
  obtain ⟨m, hm⟩ : ∃ m, s.length = m + 1 := ⟨s.length - 1, by omega⟩
  rw [hm]
  simp only [splitGo, h, if_pos hlt]
  exact congrArg _ (splitGo_congr d m b.length b (by omega) le_rfl)

theorem splitOnSeq_ne_nil {d s : Str} : splitOnSeq d s ≠ [] := by
  rw [splitOnSeq]
  cases hl : s.length with
  | zero => simp [splitGo]
  | succ m =>
    cases h : firstSplit d s with
    | none => simp [splitGo, h]
    | some p =>
      obtain ⟨a, b⟩ := p
      by_cases hlt : b.length < s.length <;> simp [splitGo, h, hlt]

theorem splitOnSeq_append {d : Str} (hd : d ≠ []) (s t : Str) :
    splitOnSeq d (s ++ t) =
      (splitOnSeq d s).dropLast ++ splitOnSeq d ((splitOnSeq d s).getLastD [] ++ t) := by
  have H : ∀ (n : Nat) (s t : Str), s.length ≤ n →
      splitOnSeq d (s ++ t) =
        (splitOnSeq d s).dropLast ++ splitOnSeq d ((splitOnSeq d s).getLastD [] ++ t) := by
    intro n
    induction n with
    | zero =>
      intro s t hle
      have hs : s = [] := List.eq_nil_of_length_eq_zero (Nat.le_zero.1 hle)
      subst hs
      have h0 : splitOnSeq d ([] : Str) = [[]] := splitOnSeq_of_none rfl
      rw [h0]
      simp
    | succ n ih =>
      intro s t hle
      cases h : firstSplit d s with
      | none =>
        rw [splitOnSeq_of_none h]
        simp
      | some p =>
        obtain ⟨a, b⟩ := p
        have hlen := firstSplit_length_le h
        have hdl : 0 < d.length := List.length_pos.2 hd
        rw [splitOnSeq_cons hd h, splitOnSeq_cons hd (firstSplit_append_right h)]
        have hne : splitOnSeq d b ≠ [] := splitOnSeq_ne_nil
        obtain ⟨x, xs, hxs⟩ : ∃ x xs, splitOnSeq d b = x :: xs := by
          cases hq : splitOnSeq d b with
          | nil => exact absurd hq hne
          | cons x xs => exact ⟨x, xs, rfl⟩
        have hrec := ih b t (by omega)
        rw [hrec, hxs]
        simp
  exact H s.length s t le_rfl

theorem splitOnSeq_getLast_noOcc {d : Str} (hd : d ≠ []) (s : Str) :
    firstSplit d ((splitOnSeq d s).getLastD []) = none := by
  have H : ∀ (n : Nat) (s : Str), s.length ≤ n →
      firstSplit d ((splitOnSeq d s).getLastD []) = none := by
    intro n
    induction n with
    | zero =>
      intro s hle
      have hs : s = [] := List.eq_nil_of_length_eq_zero (Nat.le_zero.1 hle)
      subst hs
      have h0 : splitOnSeq d ([] : Str) = [[]] := splitOnSeq_of_none rfl
      rw [h0]
      rfl
    | succ n ih =>
      intro s hle
      cases h : firstSplit d s with
      | none =>
        rw [splitOnSeq_of_none h]
        simpa
      | some p =>
        obtain ⟨a, b⟩ := p
        have hlen := firstSplit_length_le h
        have hdl : 0 < d.length := List.length_pos.2 hd
        rw [splitOnSeq_cons hd h]
        have hne : splitOnSeq d b ≠ [] := splitOnSeq_ne_nil
        obtain ⟨x, xs, hxs⟩ : ∃ x xs, splitOnSeq d b = x :: xs := by
          cases hq : splitOnSeq d b with
          | nil => exact absurd hq hne
          | cons x xs => exact ⟨x, xs, rfl⟩
        have hrec := ih b (by omega)
        rw [hxs] at hrec ⊢
        simpa using hrec
  exact H s.length s le_rfl

theorem firstSplit_replicate_concat {n : Nat} {ch : Char} {x y : Str}
    (hx : firstSplit (List.replicate (n + 1) ch) x = none)
    (hlast : x.getLast? ≠ some ch) :
    firstSplit (List.replicate (n + 1) ch) (x ++ List.replicate (n + 1) ch ++ y)
      = some (x, y) := by
  induction x with
  | nil =>
    have hpre : (List.replicate (n + 1) ch).isPrefixOf
        (List.replicate (n + 1) ch ++ y) := by
      rw [List.isPrefixOf_iff_prefix]; exact List.prefix_append _ _
    simp only [List.nil_append]
    rw [List.replicate_succ, List.cons_append, firstSplit, ← List.cons_append,
      ← List.replicate_succ, if_pos hpre, List.drop_left]
  | cons c cs ih =>
    have hd : (List.replicate (n + 1) ch) ≠ [] := by simp
    have hnp : ¬ (List.replicate (n + 1) ch).isPrefixOf
        ((c :: cs) ++ List.replicate (n + 1) ch ++ y) := by
      intro hc
      rw [List.isPrefixOf_iff_prefix] at hc
      by_cases hle : n + 1 ≤ (c :: cs).length
      · -- the occurrence would be a prefix of c :: cs, contradicting hx
        have h1 : List.replicate (n + 1) ch =
            ((c :: cs) ++ List.replicate (n + 1) ch ++ y).take (n + 1) := by
          have := List.prefix_iff_eq_take.1 hc
          simpa using this
        have h2 : ((c :: cs) ++ List.replicate (n + 1) ch ++ y).take (n + 1)
            = (c :: cs).take (n + 1) := by
          rw [List.append_assoc]
          exact List.take_append_of_le_length hle
        have hpre : List.replicate (n + 1) ch <+: (c :: cs) :=
          List.prefix_iff_eq_take.2 (by simpa using h1.trans h2)
        rw [firstSplit, if_pos ((List.isPrefixOf_iff_prefix).2 hpre)] at hx
        simp at hx
      · -- c :: cs is a proper prefix of the replicate block: its last char is ch
        have h1 : List.replicate (n + 1) ch =
            ((c :: cs) ++ List.replicate (n + 1) ch ++ y).take (n + 1) := by
          have := List.prefix_iff_eq_take.1 hc
          simpa using this
        have h2 : (List.replicate (n + 1) ch).take (c :: cs).length = (c :: cs) := by
          rw [h1, List.take_take, min_eq_left (by omega), List.append_assoc]
          exact List.take_left _ _
        have hpre2 : (c :: cs) <+: List.replicate (n + 1) ch :=
          List.prefix_iff_eq_take.2 h2.symm
        have hmem : ∀ a ∈ (c :: cs), a = ch := fun a ha =>
          List.eq_of_mem_replicate (hpre2.subset ha)
        have : (c :: cs).getLast? = some ch := by
          rw [List.getLast?_eq_getLast _ (by simp)]
          exact congrArg some (hmem _ (List.getLast_mem _))
        exact hlast this
    have hx' : firstSplit (List.replicate (n + 1) ch) cs = none := by
      rw [firstSplit] at hx
      by_cases hp : (List.replicate (n + 1) ch).isPrefixOf (c :: cs)
      · rw [if_pos hp] at hx; simp at hx
      · rw [if_neg hp] at hx
        exact Option.map_eq_none'.1 hx
    have hlast' : cs.getLast? ≠ some ch := by
      cases cs with
      | nil => simp
      | cons e es =>
        rw [List.getLast?_cons_cons] at hlast
        exact hlast
    have hnp2 : ¬ (List.replicate (n + 1) ch).isPrefixOf
        (c :: ((cs ++ List.replicate (n + 1) ch) ++ y)) = true := hnp
    show firstSplit (List.replicate (n + 1) ch)
      (c :: ((cs ++ List.replicate (n + 1) ch) ++ y)) = some (c :: cs, y)
    rw [firstSplit, if_neg hnp2, ih hx' hlast']
    rfl

theorem splitOnSeq_replicate_concat {n : Nat} {ch : Char} {x y : Str}
    (hx : firstSplit (List.replicate (n + 1) ch) x = none)
    (hlast : x.getLast? ≠ some ch) :
    splitOnSeq (List.replicate (n + 1) ch) (x ++ List.replicate (n + 1) ch ++ y)
      = x :: splitOnSeq (List.replicate (n + 1) ch) y :=
  splitOnSeq_cons (by simp) (firstSplit_replicate_concat hx hlast)

theorem trimStr_eq_nil_iff {s : Str} : trimStr s = [] ↔ ∀ c ∈ s, isWsChar c := by
  unfold trimStr
  rw [List.reverse_eq_nil_iff, List.dropWhile_eq_nil_iff]
  constructor
  · intro h c hc
    rcases List.mem_append.1 ((List.takeWhile_append_dropWhile (p := isWsChar) (l := s)) ▸ hc) with h1 | h1
    · exact List.mem_takeWhile_imp h1
    · exact h c (List.mem_reverse.2 h1)
  · intro h c hc
    have : c ∈ s.dropWhile isWsChar := List.mem_reverse.1 hc
    exact h c (List.dropWhile_subset _ this)

theorem nonblank_of_mem {s : Str} {c : Char} (hc : c ∈ s) (hw : ¬ isWsChar c = true) :
    nonblank s = true := by
  have hne : trimStr s ≠ [] := fun h0 => hw (trimStr_eq_nil_iff.1 h0 c hc)
  unfold nonblank
  cases hts : trimStr s with
  | nil => exact absurd hts hne
  | cons a l => rfl

/-!
JSON values.  JavaScript numbers are modelled as integers (the server never
produces non-integer numbers; floating point is outside the model).  Arrays
and objects are given their own list-like types so that mutual structural
recursion and induction are available.
-/

mutual

inductive Json : Type where
  | null : Json
  | bool : Bool → Json
  | num : Int → Json
  | str : Str → Json
  | arr : JArr → Json
  | obj : JObj → Json

inductive JArr : Type where
  | nil : JArr
  | cons : Json → JArr → JArr

inductive JObj : Type where
  | nil : JObj
  | cons : Str → Json → JObj → JObj

end

/-- Lowercase hexadecimal digit, as produced by JSON.stringify escapes. -/
def hexDig (n : Nat) : Char :=
  if n < 10 then Char.ofNat (48 + n) else Char.ofNat (87 + n)

/-- Escaping of a single character inside a JSON string literal, as done by
JSON.stringify. -/
def escapeChar (c : Char) : Str :=
  if c = '"' then ['\\', '"']
  else if c = '\\' then ['\\', '\\']
  else if c = '\n' then ['\\', 'n']
  else if c = '\r' then ['\\', 'r']
  else if c = '\t' then ['\\', 't']
  else if c = '\x08' then ['\\', 'b']
  else if c = '\x0c' then ['\\', 'f']
  else if c.toNat < 32 then
    ['\\', 'u', '0', '0', hexDig (c.toNat / 16), hexDig (c.toNat % 16)]
  else [c]

/-- A JSON string literal (quotes plus escaped body). -/
def serStr (s : Str) : Str := '"' :: ((s.map escapeChar).flatten ++ ['"'])

/-- Decimal digits of a natural number. -/
def natDigs (n : Nat) : Str :=
  if h : n < 10 then [Char.ofNat (48 + n)]
  else natDigs (n / 10) ++ [Char.ofNat (48 + n % 10)]
termination_by n
decreasing_by exact Nat.div_lt_self (by omega) (by omega)

/-- Decimal representation of an integer, as printed by JSON.stringify. -/
def serInt (n : Int) : Str :=
  if n < 0 then '-' :: natDigs (-n).toNat else natDigs n.toNat

/-- Indentation emitted by JSON.stringify(v, null, 2) at nesting depth d. -/
def pad (d : Nat) : Str := List.replicate (2 * d) ' '

mutual

/-- Model of JSON.stringify(v, null, 2) at nesting depth ind. -/
def serVal (ind : Nat) : Json → Str
  | .null => ['n', 'u', 'l', 'l']
  | .bool false => ['f', 'a', 'l', 's', 'e']
  | .bool true => ['t', 'r', 'u', 'e']
  | .num n => serInt n
  | .str s => serStr s
  | .arr .nil => ['[', ']']
  | .arr (.cons x tl) =>
    '[' :: '\n' :: (pad (ind + 1) ++ serItems (ind + 1) (.cons x tl)
      ++ '\n' :: (pad ind ++ [']']))
  | .obj .nil => ['\x7b', '\x7d']
  | .obj (.cons k v tl) =>
    '\x7b' :: '\n' :: (pad (ind + 1) ++ serFields (ind + 1) (.cons k v tl)
      ++ '\n' :: (pad ind ++ ['\x7d']))

/-- Serialized array items, separated by comma, newline and indentation. -/
def serItems (ind : Nat) : JArr → Str
  | .nil => []
  | .cons x .nil => serVal ind x
  | .cons x (.cons y tl) =>
    serVal ind x ++ ',' :: '\n' :: (pad ind ++ serItems ind (.cons y tl))

/-- Serialized object fields, separated by comma, newline and indentation. -/
def serFields (ind : Nat) : JObj → Str
  | .nil => []
  | .cons k v .nil => serStr k ++ ':' :: ' ' :: serVal ind v
  | .cons k v (.cons k2 v2 tl) =>
    serStr k ++ ':' :: ' ' :: serVal ind v
      ++ ',' :: '\n' :: (pad ind ++ serFields ind (.cons k2 v2 tl))

end

/-- JSON whitespace accepted between tokens by JSON.parse. -/
def jsonWs (c : Char) : Bool := c = ' ' || c = '\t' || c = '\n' || c = '\r'

def skipWs (s : Str) : Str := s.dropWhile jsonWs

/-- Value of a hexadecimal digit character. -/
def hexVal (c : Char) : Option Nat :=
  if 48 ≤ c.toNat ∧ c.toNat ≤ 57 then some (c.toNat - 48)
  else if 97 ≤ c.toNat ∧ c.toNat ≤ 102 then some (c.toNat - 87)
  else if 65 ≤ c.toNat ∧ c.toNat ≤ 70 then some (c.toNat - 55)
  else none

/-- Decoded character for a single-letter escape. -/
def escCode (e : Char) : Option Char :=
  if e = '"' then some '"'
  else if e = '\\' then some '\\'
  else if e = '/' then some '/'
  else if e = 'n' then some '\n'
  else if e = 'r' then some '\r'
  else if e = 't' then some '\t'
  else if e = 'b' then some '\x08'
  else if e = 'f' then some '\x0c'
  else none

/-- Body of a JSON string literal after the opening quote; returns the decoded
characters and the input remaining after the closing quote. -/
def parseStringBody : Str → Option (Str × Str)
  | [] => none
  | c :: r =>
    if c = '"' then some ([], r)
    else if c = '\\' then
      match r with
      | [] => none
      | e :: r1 =>
        if e = 'u' then
          match r1 with
          | h1 :: h2 :: h3 :: h4 :: r2 =>
            match hexVal h1, hexVal h2, hexVal h3, hexVal h4 with
            | some v1, some v2, some v3, some v4 =>
              let v := ((v1 * 16 + v2) * 16 + v3) * 16 + v4
              if v < 55296 ∨ (57343 < v ∧ v < 1114112) then
                (parseStringBody r2).map (fun p => (Char.ofNat v :: p.1, p.2))
              else none
            | _, _, _, _ => none
          | _ => none
        else
          match escCode e with
          | some d => (parseStringBody r1).map (fun p => (d :: p.1, p.2))
          | none => none
    else if c.toNat < 32 then none
    else (parseStringBody r).map (fun p => (c :: p.1, p.2))

def isDigitCh (c : Char) : Bool := 48 ≤ c.toNat && c.toNat ≤ 57

def digsToNat (s : Str) : Nat := s.foldl (fun a c => 10 * a + (c.toNat - 48)) 0

/-- Integer literal parsing (the subset of JSON number syntax the model's
serializer emits; other number forms make the surrounding parse fail, which
only exercises the raw-text fallback in the server). -/
def parseNum (s : Str) : Option (Json × Str) :=
  match s with
  | [] => none
  | c :: r =>
    if c = '-' then
      let ds := r.takeWhile isDigitCh
      if ds.isEmpty then none
      else some (.num (-(digsToNat ds : Int)), r.dropWhile isDigitCh)
    else
      let ds := (c :: r).takeWhile isDigitCh
      if ds.isEmpty then none
      else some (.num (digsToNat ds : Int), (c :: r).dropWhile isDigitCh)

mutual

/-- Fueled model of JSON.parse: parse one value, returning it and the rest of
the input (leading whitespace is skipped, trailing input is left alone). -/
def parseVal : Nat → Str → Option (Json × Str)
  | 0, _ => none
  | fuel + 1, s =>
    match skipWs s with
    | [] => none
    | c :: r =>
      if c = '\x7b' then
        if (skipWs r).head? = some '\x7d' then some (.obj .nil, (skipWs r).tail)
        else (parseObjItems fuel r).map (fun p => (.obj p.1, p.2))
      else if c = '[' then
        if (skipWs r).head? = some ']' then some (.arr .nil, (skipWs r).tail)
        else (parseArrItems fuel r).map (fun p => (.arr p.1, p.2))
      else if c = '"' then (parseStringBody r).map (fun p => (.str p.1, p.2))
      else if c = 't' then
        if ['r', 'u', 'e'].isPrefixOf r then some (.bool true, r.drop 3) else none
      else if c = 'f' then
        if ['a', 'l', 's', 'e'].isPrefixOf r then some (.bool false, r.drop 4) else none
      else if c = 'n' then
        if ['u', 'l', 'l'].isPrefixOf r then some (.null, r.drop 3) else none
      else parseNum (c :: r)

/-- One or more comma-separated array items followed by a closing bracket. -/
def parseArrItems : Nat → Str → Option (JArr × Str)
  | 0, _ => none
  | fuel + 1, s =>
    match parseVal fuel s with
    | none => none
    | some (j, rest) =>
      match skipWs rest with
      | [] => none
      | c :: r2 =>
        if c = ',' then (parseArrItems fuel r2).map (fun p => (.cons j p.1, p.2))
        else if c = ']' then some (.cons j .nil, r2)
        else none

/-- One or more comma-separated key/value pairs followed by a closing brace. -/
def parseObjItems : Nat → Str → Option (JObj × Str)
  | 0, _ => none
  | fuel + 1, s =>
    match skipWs s with
    | [] => none
    | c :: r =>
      if c = '"' then
        match parseStringBody r with
        | none => none
        | some (k, rest) =>
          match skipWs rest with
          | [] => none
          | c2 :: r2 =>
            if c2 = ':' then
              match parseVal fuel r2 with
              | none => none
              | some (v, rest2) =>
                match skipWs rest2 with
                | [] => none
                | c3 :: r3 =>
                  if c3 = ',' then
                    (parseObjItems fuel r3).map (fun p => (.cons k v p.1, p.2))
                  else if c3 = '\x7d' then some (.cons k v .nil, r3)
                  else none
            else none
      else none

end

/-- Model of JSON.parse on a whole string: the parse must consume everything
except trailing whitespace. -/
def Json.parse (s : Str) : Option Json :=
  match parseVal (2 * s.length + 2) s with
  | some (j, rest) => if (skipWs rest).isEmpty then some j else none
  | none => none

mutual

/-- Node count of a JSON value, used as a fuel bound for the parser. -/
def jsize : Json → Nat
  | .null => 1
  | .bool _ => 1
  | .num _ => 1
  | .str _ => 1
  | .arr a => asize a + 1
  | .obj o => osize o + 1

def asize : JArr → Nat
  | .nil => 1
  | .cons x tl => jsize x + asize tl + 1

def osize : JObj → Nat
  | .nil => 1
  | .cons _ v tl => jsize v + osize tl + 1

end

theorem skipWs_append_ws {w : Str} (s : Str) (hw : ∀ c ∈ w, jsonWs c = true) :
    skipWs (w ++ s) = skipWs s := by
  induction w with
  | nil => rfl
  | cons c cs ih =>
    unfold skipWs at *
    rw [List.cons_append, List.dropWhile_cons, if_pos (hw c (by simp))]
    exact ih (fun c hc => hw c (by simp [hc]))

theorem skipWs_pad (n : Nat) (s : Str) : skipWs (pad n ++ s) = skipWs s :=
  skipWs_append_ws s (fun c hc => by
    have := List.eq_of_mem_replicate hc
    subst this; rfl)

theorem skipWs_cons_not {c : Char} (s : Str) (hc : jsonWs c = false) :
    skipWs (c :: s) = c :: s := by
  unfold skipWs
  rw [List.dropWhile_cons, if_neg (by simp [hc])]

theorem isDigitCh_ofNat {m : Nat} (h : m < 10) : isDigitCh (Char.ofNat (48 + m)) = true := by
  have hall : ∀ m' < 10, isDigitCh (Char.ofNat (48 + m')) = true := by decide
  exact hall m h

theorem toNat_digitChar {m : Nat} (h : m < 10) : (Char.ofNat (48 + m)).toNat = 48 + m := by
  have hall : ∀ m' < 10, (Char.ofNat (48 + m')).toNat = 48 + m' := by decide
  exact hall m h

theorem natDigs_all_digits {n : Nat} : ∀ c ∈ natDigs n, isDigitCh c = true := by
  induction n using Nat.strong_induction_on with
  | _ n ih =>
    rw [natDigs]
    by_cases h : n < 10
    · simp only [dif_pos h, List.mem_singleton]
      rintro c rfl
      exact isDigitCh_ofNat h
    · simp only [dif_neg h, List.mem_append, List.mem_singleton]
      rintro c (hc | rfl)
      · exact ih (n / 10) (Nat.div_lt_self (by omega) (by omega)) c hc
      · exact isDigitCh_ofNat (Nat.mod_lt _ (by omega))

theorem natDigs_ne_nil {n : Nat} : natDigs n ≠ [] := by
  rw [natDigs]
  by_cases h : n < 10 <;> simp [h]

theorem digsToNat_append_digit (a : Str) (c : Char) :
    digsToNat (a ++ [c]) = 10 * digsToNat a + (c.toNat - 48) := by
  unfold digsToNat
  rw [List.foldl_append]
  rfl

theorem digsToNat_natDigs (n : Nat) : digsToNat (natDigs n) = n := by
  induction n using Nat.strong_induction_on with
  | _ n ih =>
    rw [natDigs]
    by_cases h : n < 10
    · simp only [dif_pos h]
      unfold digsToNat
      simp only [List.foldl_cons, List.foldl_nil]
      rw [toNat_digitChar h]
      omega
    · simp only [dif_neg h]
      rw [digsToNat_append_digit, ih (n / 10) (Nat.div_lt_self (by omega) (by omega)),
        toNat_digitChar (Nat.mod_lt _ (by omega))]
      omega

/-- No-leading-digit condition on the input remaining after a parsed value:
keeps a serialized number from absorbing following characters. -/
def headNotDigit : Str → Prop
  | [] => True
  | c :: _ => isDigitCh c = false

theorem takeWhile_all_append {p : Char → Bool} {a rest : Str}
    (ha : ∀ c ∈ a, p c = true)
    (hr : match rest with | [] => True | c :: _ => p c = false) :
    (a ++ rest).takeWhile p = a ∧ (a ++ rest).dropWhile p = rest := by
  induction a with
  | nil =>
    simp only [List.nil_append]
    cases rest with
    | nil => simp
    | cons c r =>
      simp only at hr
      rw [List.takeWhile_cons, List.dropWhile_cons, hr]
      simp
  | cons c cs ih =>
    have hpc := ha c (by simp)
    obtain ⟨h1, h2⟩ := ih (fun x hx => ha x (by simp [hx]))
    rw [List.cons_append, List.takeWhile_cons, List.dropWhile_cons, hpc]
    simp [h1, h2]

theorem isDigitCh_ne_minus {c : Char} (h : isDigitCh c = true) : c ≠ '-' := by
  intro hc
  subst hc
  simp [isDigitCh] at h

theorem parseNum_serInt (n : Int) (rest : Str) (hr : headNotDigit rest) :
    parseNum (serInt n ++ rest) = some (.num n, rest) := by
  have hmatch : ∀ (m : Nat) (r2 : Str), (match r2 with
      | [] => True | c :: _ => isDigitCh c = false) →
      parseNum (natDigs m ++ r2) = some (.num (m : Int), r2) := by
    intro m r2 hr2
    obtain ⟨d, ds, hds⟩ : ∃ d ds, natDigs m = d :: ds := by
      cases hq : natDigs m with
      | nil => exact absurd hq natDigs_ne_nil
      | cons d ds => exact ⟨d, ds, rfl⟩
    have hdig : isDigitCh d = true := natDigs_all_digits d (by rw [hds]; simp)
    obtain ⟨ht, hd⟩ := @takeWhile_all_append isDigitCh (natDigs m) r2
      natDigs_all_digits hr2
    rw [hds] at ht hd ⊢
    rw [List.cons_append, parseNum, if_neg (by simpa using isDigitCh_ne_minus hdig)]
    simp only [← List.cons_append, ht, hd]
    rw [if_neg (by simp)]
    rw [← hds, digsToNat_natDigs]
  unfold serInt
  by_cases hneg : n < 0
  · rw [if_pos hneg, List.cons_append, parseNum, if_pos rfl]
    obtain ⟨ht, hd⟩ := @takeWhile_all_append isDigitCh (natDigs (-n).toNat) rest
      natDigs_all_digits (by cases rest with | nil => trivial | cons c r => exact hr)
    simp only [ht, hd]
    rw [if_neg (by simp [natDigs_ne_nil])]
    rw [digsToNat_natDigs]
    have htn : (((-n).toNat : Int)) = -n := Int.toNat_of_nonneg (by omega)
    rw [htn]
    simp
  · rw [if_neg hneg]
    have hm := hmatch n.toNat rest (by cases rest with | nil => trivial | cons c r => exact hr)
    rw [hm, Int.toNat_of_nonneg (by omega)]

theorem hexVal_hexDig {m : Nat} (h : m < 16) : hexVal (hexDig m) = some m := by
  have hall : ∀ m' < 16, hexVal (hexDig m') = some m' := by decide
  exact hall m h

theorem parseStringBody_escapeChar (c : Char) (t : Str) :
    parseStringBody (escapeChar c ++ t) =
      (parseStringBody t).map (fun p => (c :: p.1, p.2)) := by
  unfold escapeChar
  by_cases h1 : c = '"'
  · subst h1
    rw [if_pos rfl]
    simp only [List.cons_append, List.nil_append]
    rw [parseStringBody.eq_def]
    rfl
  · rw [if_neg h1]
    by_cases h2 : c = '\\'
    · subst h2
      rw [if_pos rfl]
      simp only [List.cons_append, List.nil_append]
      rw [parseStringBody.eq_def]
      rfl
    · rw [if_neg h2]
      by_cases h3 : c = '\n'
      · subst h3
        rw [if_pos rfl]
        simp only [List.cons_append, List.nil_append]
        rw [parseStringBody.eq_def]
        rfl
      · rw [if_neg h3]
        by_cases h4 : c = '\r'
        · subst h4
          rw [if_pos rfl]
          simp only [List.cons_append, List.nil_append]
          rw [parseStringBody.eq_def]
          rfl
        · rw [if_neg h4]
          by_cases h5 : c = '\t'
          · subst h5
            rw [if_pos rfl]
            simp only [List.cons_append, List.nil_append]
            rw [parseStringBody.eq_def]
            rfl
          · rw [if_neg h5]
            by_cases h6 : c = '\x08'
            · subst h6
              rw [if_pos rfl]
              simp only [List.cons_append, List.nil_append]
              rw [parseStringBody.eq_def]
              rfl
            · rw [if_neg h6]
              by_cases h7 : c = '\x0c'
              · subst h7
                rw [if_pos rfl]
                simp only [List.cons_append, List.nil_append]
                rw [parseStringBody.eq_def]
                rfl
              · rw [if_neg h7]
                by_cases h8 : c.toNat < 32
                · rw [if_pos h8]
                  simp only [List.cons_append, List.nil_append]
                  rw [parseStringBody.eq_def]
                  have hv2 : hexVal (hexDig (c.toNat / 16)) = some (c.toNat / 16) :=
                    hexVal_hexDig (by omega)
                  have hv3 : hexVal (hexDig (c.toNat % 16)) = some (c.toNat % 16) :=
                    hexVal_hexDig (Nat.mod_lt _ (by omega))
                  have hval : ((0 * 16 + 0) * 16 + c.toNat / 16) * 16 + c.toNat % 16
                      = c.toNat := by omega
                  have hv1 : hexVal '0' = some 0 := rfl
                  simp only [hv1, hv2, hv3, reduceIte]
                  simp only [hval]
                  rw [if_pos (Or.inl (by omega : c.toNat < 55296)), Char.ofNat_toNat,
                    if_neg (by decide : ¬ ('\\' : Char) = '"')]
                · rw [if_neg h8]
                  simp only [List.cons_append, List.nil_append]
                  rw [parseStringBody.eq_def]
                  dsimp only
                  rw [if_neg h1, if_neg h2, if_neg h8]

theorem parseStringBody_roundtrip (s : Str) (rest : Str) :
    parseStringBody ((s.map escapeChar).flatten ++ '"' :: rest) = some (s, rest) := by
  induction s with
  | nil =>
    simp only [List.map_nil, List.flatten_nil, List.nil_append]
    rw [parseStringBody.eq_def]
    rfl
  | cons c cs ih =>
    simp only [List.map_cons, List.flatten_cons, List.append_assoc]
    rw [parseStringBody_escapeChar, ih]
    rfl

theorem parseVal_ws (f : Nat) {w : Str} (s : Str) (hw : ∀ c ∈ w, jsonWs c = true) :
    parseVal f (w ++ s) = parseVal f s := by
  cases f with
  | zero => rfl
  | succ f => rw [parseVal, parseVal, skipWs_append_ws s hw]

theorem parseArrItems_ws (f : Nat) {w : Str} (s : Str) (hw : ∀ c ∈ w, jsonWs c = true) :
    parseArrItems (f + 1) (w ++ s) = parseArrItems (f + 1) s := by
  rw [parseArrItems, parseArrItems, parseVal_ws f s hw]

theorem parseObjItems_ws (f : Nat) {w : Str} (s : Str) (hw : ∀ c ∈ w, jsonWs c = true) :
    parseObjItems (f + 1) (w ++ s) = parseObjItems (f + 1) s := by
  rw [parseObjItems, parseObjItems, skipWs_append_ws s hw]

theorem digit_head_props {c : Char} (h : isDigitCh c = true) :
    jsonWs c = false ∧ ¬ c = '\x7b' ∧ ¬ c = '[' ∧ ¬ c = '"'
      ∧ ¬ c = 't' ∧ ¬ c = 'f' ∧ ¬ c = 'n' := by
  have h2 : 48 ≤ c.toNat ∧ c.toNat ≤ 57 := by simpa [isDigitCh] using h
  have hofnat := Char.ofNat_toNat c
  have hall : ∀ m < 58, 48 ≤ m →
      (jsonWs (Char.ofNat m) = false ∧ ¬ (Char.ofNat m) = '\x7b'
        ∧ ¬ (Char.ofNat m) = '[' ∧ ¬ (Char.ofNat m) = '"'
        ∧ ¬ (Char.ofNat m) = 't' ∧ ¬ (Char.ofNat m) = 'f'
        ∧ ¬ (Char.ofNat m) = 'n') := by decide
  have := hall c.toNat (by omega) h2.1
  rwa [hofnat] at this

theorem parseVal_serInt (f : Nat) (n : Int) (rest : Str) (hr : headNotDigit rest) :
    parseVal (f + 1) (serInt n ++ rest) = some (.num n, rest) := by
  by_cases hneg : n < 0
  · have hshape : serInt n ++ rest = '-' :: (natDigs (-n).toNat ++ rest) := by
      unfold serInt
      rw [if_pos hneg, List.cons_append]
    rw [hshape, parseVal, skipWs_cons_not _ (by decide)]
    dsimp only
    rw [if_neg (by decide), if_neg (by decide), if_neg (by decide), if_neg (by decide),
      if_neg (by decide), if_neg (by decide), ← hshape]
    exact parseNum_serInt n rest hr
  · have hshape : serInt n ++ rest = natDigs n.toNat ++ rest := by
      unfold serInt
      rw [if_neg hneg]
    obtain ⟨d, ds, hds⟩ : ∃ d ds, natDigs n.toNat = d :: ds := by
      cases hq : natDigs n.toNat with
      | nil => exact absurd hq natDigs_ne_nil
      | cons d ds => exact ⟨d, ds, rfl⟩
    have hdig : isDigitCh d = true := natDigs_all_digits d (by rw [hds]; simp)
    obtain ⟨hws, hb1, hb2, hb3, hb4, hb5, hb6⟩ := digit_head_props hdig
    have hshape2 : serInt n ++ rest = d :: (ds ++ rest) := by
      rw [hshape, hds, List.cons_append]
    rw [hshape2, parseVal, skipWs_cons_not _ hws]
    dsimp only
    rw [if_neg hb1, if_neg hb2, if_neg hb3, if_neg hb4, if_neg hb5, if_neg hb6, ← hshape2]
    exact parseNum_serInt n rest hr

theorem serVal_head (ind : Nat) (j : Json) : ∃ c t, serVal ind j = c :: t ∧
    jsonWs c = false ∧ ¬ c = ']' ∧ ¬ c = '\x7d' ∧ ¬ c = ',' := by
  cases j with
  | null =>
    exact ⟨'n', ['u', 'l', 'l'], by simp [serVal], by decide, by decide, by decide, by decide⟩
  | bool b =>
    cases b with
    | true =>
      exact ⟨'t', ['r', 'u', 'e'], by simp [serVal], by decide, by decide, by decide, by decide⟩
    | false =>
      exact ⟨'f', ['a', 'l', 's', 'e'], by simp [serVal], by decide, by decide, by decide,
        by decide⟩
  | num n =>
    by_cases hneg : n < 0
    · refine ⟨'-', natDigs (-n).toNat, ?_, by decide, by decide, by decide, by decide⟩
      simp [serVal, serInt, hneg]
    · obtain ⟨d, ds, hds⟩ : ∃ d ds, natDigs n.toNat = d :: ds := by
        cases hq : natDigs n.toNat with
        | nil => exact absurd hq natDigs_ne_nil
        | cons d ds => exact ⟨d, ds, rfl⟩
      have hdig : isDigitCh d = true := natDigs_all_digits d (by rw [hds]; simp)
      have h2 : 48 ≤ d.toNat ∧ d.toNat ≤ 57 := by simpa [isDigitCh] using hdig
      have hofnat := Char.ofNat_toNat d
      have hall : ∀ m < 58, 48 ≤ m →
          (jsonWs (Char.ofNat m) = false ∧ ¬ (Char.ofNat m) = ']'
            ∧ ¬ (Char.ofNat m) = '\x7d' ∧ ¬ (Char.ofNat m) = ',') := by decide
      have hd := hall d.toNat (by omega) h2.1
      rw [hofnat] at hd
      refine ⟨d, ds, ?_, hd.1, hd.2.1, hd.2.2.1, hd.2.2.2⟩
      simp [serVal, serInt, hneg, hds]
  | str s =>
    exact ⟨'"', (List.map escapeChar s).flatten ++ ['"'], by simp [serVal, serStr],
      by decide, by decide, by decide, by decide⟩
  | arr a =>
    cases a with
    | nil => exact ⟨'[', [']'], by simp [serVal], by decide, by decide, by decide, by decide⟩
    | cons x tl =>
      exact ⟨'[', '\n' :: (pad (ind + 1) ++ (serItems (ind + 1) (JArr.cons x tl)
        ++ '\n' :: (pad ind ++ [']']))), by simp [serVal], by decide, by decide,
        by decide, by decide⟩
  | obj o =>
    cases o with
    | nil =>
      exact ⟨'\x7b', ['\x7d'], by simp [serVal], by decide, by decide, by decide, by decide⟩
    | cons k v tl =>
      exact ⟨'\x7b', '\n' :: (pad (ind + 1) ++ (serFields (ind + 1) (JObj.cons k v tl)
        ++ '\n' :: (pad ind ++ ['\x7d']))), by simp [serVal], by decide, by decide,
        by decide, by decide⟩

theorem jsize_pos (j : Json) : 1 ≤ jsize j := by
  cases j <;> simp [jsize]

theorem asize_pos (a : JArr) : 1 ≤ asize a := by
  cases a <;> simp [asize]

theorem osize_pos (o : JObj) : 1 ≤ osize o := by
  cases o <;> simp [osize]

theorem headNotDigit_cons {c : Char} (h : isDigitCh c = false) (s : Str) :
    headNotDigit (c :: s) := h

theorem mem_nl_pad_ws {n : Nat} : ∀ c ∈ ('\n' :: pad n), jsonWs c = true := by
  intro c hc
  rcases List.mem_cons.1 hc with rfl | hc2
  · rfl
  · rw [List.eq_of_mem_replicate hc2]; rfl

theorem skipWs_nl_pad (n : Nat) (X : Str) : skipWs ('\n' :: (pad n ++ X)) = skipWs X := by
  rw [show ('\n' :: (pad n ++ X)) = (('\n' :: pad n) ++ X) from rfl,
    skipWs_append_ws X mem_nl_pad_ws]

mutual

theorem rtVal (j : Json) (f ind : Nat) (rest : Str) (hf : jsize j < f)
    (hrest : headNotDigit rest) :
    parseVal f (serVal ind j ++ rest) = some (j, rest) := by
  cases f with
  | zero => exact absurd hf (by omega)
  | succ f =>
    cases j with
    | null =>
      simp only [serVal, List.cons_append, List.nil_append]
      rw [parseVal, skipWs_cons_not _ (by decide)]
      dsimp only
      rw [if_neg (by decide), if_neg (by decide), if_neg (by decide), if_neg (by decide),
        if_neg (by decide), if_pos rfl, if_pos (by simp [List.isPrefixOf])]
      rfl
    | bool b =>
      cases b with
      | true =>
        simp only [serVal, List.cons_append, List.nil_append]
        rw [parseVal, skipWs_cons_not _ (by decide)]
        dsimp only
        rw [if_neg (by decide), if_neg (by decide), if_neg (by decide), if_pos rfl,
          if_pos (by simp [List.isPrefixOf])]
        rfl
      | false =>
        simp only [serVal, List.cons_append, List.nil_append]
        rw [parseVal, skipWs_cons_not _ (by decide)]
        dsimp only
        rw [if_neg (by decide), if_neg (by decide), if_neg (by decide), if_neg (by decide),
          if_pos rfl, if_pos (by simp [List.isPrefixOf])]
        rfl
    | num n =>
      simp only [serVal]
      exact parseVal_serInt f n rest hrest
    | str s =>
      simp only [serVal, serStr, List.cons_append, List.append_assoc,
        List.singleton_append]
      rw [parseVal, skipWs_cons_not _ (by decide)]
      dsimp only
      rw [if_neg (by decide), if_neg (by decide), if_pos rfl, parseStringBody_roundtrip]
      rfl
    | arr a =>
      cases a with
      | nil =>
        simp only [serVal, List.cons_append, List.nil_append]
        rw [parseVal, skipWs_cons_not _ (by decide)]
        dsimp only
        rw [if_neg (by decide), if_pos rfl, skipWs_cons_not _ (by decide),
          if_pos (show ((']' :: rest).head? = some ']') from rfl)]
        rfl
      | cons x tl =>
        have ha := asize_pos tl
        have hx := jsize_pos x
        simp only [jsize, asize] at hf
        cases f with
        | zero => omega
        | succ f2 =>
          simp only [serVal, List.cons_append, List.append_assoc, List.nil_append]
          rw [parseVal, skipWs_cons_not _ (by decide)]
          dsimp only
          rw [if_neg (by decide), if_pos rfl]
          obtain ⟨W, hW⟩ : ∃ W, serItems (ind + 1) (JArr.cons x tl)
              = serVal (ind + 1) x ++ W := by
            cases tl with
            | nil => exact ⟨[], by simp [serItems]⟩
            | cons y tl2 =>
              exact ⟨',' :: '\n' :: (pad (ind + 1) ++ serItems (ind + 1) (JArr.cons y tl2)),
                by simp [serItems]⟩
          obtain ⟨c0, t0, hc0, hws0, hne0, _, _⟩ := serVal_head (ind + 1) x
          have hskip : skipWs ('\n' :: (pad (ind + 1) ++ (serItems (ind + 1) (JArr.cons x tl)
              ++ '\n' :: (pad ind ++ (']' :: rest)))))
              = c0 :: (t0 ++ (W ++ '\n' :: (pad ind ++ (']' :: rest)))) := by
            rw [skipWs_nl_pad, hW, List.append_assoc, hc0, List.cons_append,
              skipWs_cons_not _ hws0]
          rw [hskip]
          rw [if_neg (by simp [hne0])]
          rw [show ('\n' :: (pad (ind + 1) ++ (serItems (ind + 1) (JArr.cons x tl)
              ++ '\n' :: (pad ind ++ (']' :: rest)))))
            = (('\n' :: pad (ind + 1)) ++ (serItems (ind + 1) (JArr.cons x tl)
              ++ '\n' :: (pad ind ++ (']' :: rest)))) from rfl,
            parseArrItems_ws f2 _ mem_nl_pad_ws,
            rtArr x tl (f2 + 1) ind (ind + 1) rest (by simp only [asize]; omega)]
          rfl
    | obj o =>
      cases o with
      | nil =>
        simp only [serVal, List.cons_append, List.nil_append]
        rw [parseVal, skipWs_cons_not _ (by decide)]
        dsimp only
        rw [if_pos rfl, skipWs_cons_not _ (by decide),
          if_pos (show ((('\x7d' : Char) :: rest).head? = some '\x7d') from rfl)]
        rfl
      | cons k v tl =>
        have ho := osize_pos tl
        have hv := jsize_pos v
        simp only [jsize, osize] at hf
        cases f with
        | zero => omega
        | succ f2 =>
          simp only [serVal, List.cons_append, List.append_assoc, List.nil_append]
          rw [parseVal, skipWs_cons_not _ (by decide)]
          dsimp only
          rw [if_pos rfl]
          obtain ⟨V, hV⟩ : ∃ V, serFields (ind + 1) (JObj.cons k v tl)
              = serStr k ++ V := by
            cases tl with
            | nil => exact ⟨':' :: ' ' :: serVal (ind + 1) v, by simp [serFields]⟩
            | cons k2 v2 tl2 =>
              exact ⟨':' :: ' ' :: serVal (ind + 1) v
                ++ ',' :: '\n' :: (pad (ind + 1) ++ serFields (ind + 1) (JObj.cons k2 v2 tl2)),
                by simp [serFields]⟩
          have hskip : skipWs ('\n' :: (pad (ind + 1) ++ (serFields (ind + 1) (JObj.cons k v tl)
              ++ '\n' :: (pad ind ++ ('\x7d' :: rest)))))
              = '"' :: (((List.map escapeChar k).flatten ++ ['"'])
                ++ (V ++ '\n' :: (pad ind ++ ('\x7d' :: rest)))) := by
            rw [skipWs_nl_pad, hV, List.append_assoc, serStr, List.cons_append,
              skipWs_cons_not _ (by decide)]
          rw [hskip]
          rw [if_neg (by simp)]
          rw [show ('\n' :: (pad (ind + 1) ++ (serFields (ind + 1) (JObj.cons k v tl)
              ++ '\n' :: (pad ind ++ ('\x7d' :: rest)))))
            = (('\n' :: pad (ind + 1)) ++ (serFields (ind + 1) (JObj.cons k v tl)
              ++ '\n' :: (pad ind ++ ('\x7d' :: rest)))) from rfl,
            parseObjItems_ws f2 _ mem_nl_pad_ws,
            rtObj k v tl (f2 + 1) ind (ind + 1) rest (by simp only [osize]; omega)]
          rfl
termination_by sizeOf j

theorem rtArr (x : Json) (tl : JArr) (f ind ind2 : Nat) (rest : Str)
    (hf : asize (JArr.cons x tl) < f) :
    parseArrItems f (serItems ind2 (JArr.cons x tl) ++ '\n' :: (pad ind ++ (']' :: rest)))
      = some (JArr.cons x tl, rest) := by
  have hx := jsize_pos x
  have ha := asize_pos tl
  simp only [asize] at hf
  cases f with
  | zero => omega
  | succ f =>
    cases tl with
    | nil =>
      simp only [serItems]
      rw [parseArrItems,
        rtVal x f ind2 ('\n' :: (pad ind ++ (']' :: rest))) (by omega)
          (headNotDigit_cons (by decide) _)]
      dsimp only
      rw [skipWs_nl_pad, skipWs_cons_not _ (by decide)]
      dsimp only
      rw [if_neg (by decide), if_pos rfl]
    | cons y tl2 =>
      have hy := jsize_pos y
      have ha2 := asize_pos tl2
      simp only [asize] at hf ha
      cases f with
      | zero => omega
      | succ f3 =>
        simp only [serItems, List.append_assoc, List.cons_append]
        rw [parseArrItems,
          rtVal x (f3 + 1) ind2 _ (by omega) (headNotDigit_cons (by decide) _)]
        dsimp only
        rw [skipWs_cons_not _ (by decide)]
        dsimp only
        rw [if_pos rfl]
        rw [show ('\n' :: (pad ind2 ++ (serItems ind2 (JArr.cons y tl2)
            ++ '\n' :: (pad ind ++ (']' :: rest)))))
          = (('\n' :: pad ind2) ++ (serItems ind2 (JArr.cons y tl2)
            ++ '\n' :: (pad ind ++ (']' :: rest)))) from rfl,
          parseArrItems_ws f3 _ mem_nl_pad_ws,
          rtArr y tl2 (f3 + 1) ind ind2 rest (by simp only [asize]; omega)]
        rfl
termination_by 1 + sizeOf x + sizeOf tl

theorem rtObj (k : Str) (v : Json) (tl : JObj) (f ind ind2 : Nat) (rest : Str)
    (hf : osize (JObj.cons k v tl) < f) :
    parseObjItems f (serFields ind2 (JObj.cons k v tl) ++ '\n' :: (pad ind ++ ('\x7d' :: rest)))
      = some (JObj.cons k v tl, rest) := by
  have hv := jsize_pos v
  have ho := osize_pos tl
  simp only [osize] at hf
  cases f with
  | zero => omega
  | succ f =>
    cases tl with
    | nil =>
      simp only [serFields, serStr, List.append_assoc, List.cons_append,
        List.singleton_append]
      rw [parseObjItems, skipWs_cons_not _ (by decide)]
      dsimp only
      rw [if_pos rfl, parseStringBody_roundtrip]
      dsimp only
      simp only [List.nil_append]
      rw [skipWs_cons_not _ (by decide)]
      dsimp only
      rw [if_pos rfl]
      rw [show (' ' :: (serVal ind2 v ++ ('\n' :: (pad ind ++ ('\x7d' :: rest)))))
          = ([' '] ++ (serVal ind2 v ++ ('\n' :: (pad ind ++ ('\x7d' :: rest))))) from rfl,
        parseVal_ws f _ (by intro c hc; simp at hc; rw [hc]; rfl),
        rtVal v f ind2 _ (by omega) (headNotDigit_cons (by decide) _)]
      dsimp only
      rw [skipWs_nl_pad, skipWs_cons_not _ (by decide)]
      dsimp only
      rw [if_neg (by decide), if_pos rfl]
    | cons k2 v2 tl2 =>
      have hv2 := jsize_pos v2
      have ho2 := osize_pos tl2
      simp only [osize] at hf ho
      cases f with
      | zero => omega
      | succ f3 =>
        simp only [serFields, serStr, List.append_assoc, List.cons_append,
          List.singleton_append]
        rw [parseObjItems, skipWs_cons_not _ (by decide)]
        dsimp only
        rw [if_pos rfl, parseStringBody_roundtrip]
        dsimp only
        simp only [List.nil_append]
        rw [skipWs_cons_not _ (by decide)]
        dsimp only
        rw [if_pos rfl]
        rw [show (' ' :: (serVal ind2 v ++ (',' :: '\n' :: (pad ind2
            ++ (serFields ind2 (JObj.cons k2 v2 tl2)
              ++ '\n' :: (pad ind ++ ('\x7d' :: rest)))))))
          = ([' '] ++ (serVal ind2 v ++ (',' :: '\n' :: (pad ind2
            ++ (serFields ind2 (JObj.cons k2 v2 tl2)
              ++ '\n' :: (pad ind ++ ('\x7d' :: rest))))))) from rfl,
          parseVal_ws (f3 + 1) _ (by intro c hc; simp at hc; rw [hc]; rfl),
          rtVal v (f3 + 1) ind2 _ (by omega) (headNotDigit_cons (by decide) _)]
        dsimp only
        rw [skipWs_cons_not _ (by decide)]
        dsimp only
        rw [if_pos rfl]
        rw [show ('\n' :: (pad ind2 ++ (serFields ind2 (JObj.cons k2 v2 tl2)
            ++ '\n' :: (pad ind ++ ('\x7d' :: rest)))))
          = (('\n' :: pad ind2) ++ (serFields ind2 (JObj.cons k2 v2 tl2)
            ++ '\n' :: (pad ind ++ ('\x7d' :: rest)))) from rfl,
          parseObjItems_ws f3 _ mem_nl_pad_ws,
          rtObj k2 v2 tl2 (f3 + 1) ind ind2 rest (by simp only [osize]; omega)]
        rfl
termination_by 1 + sizeOf v + sizeOf tl

end

theorem serInt_length_pos (n : Int) : 1 ≤ (serInt n).length := by
  unfold serInt
  by_cases hneg : n < 0
  · simp [hneg]
  · rw [if_neg hneg]
    exact List.length_pos.2 natDigs_ne_nil

mutual

theorem jsize_le_serVal (ind : Nat) (j : Json) : jsize j ≤ (serVal ind j).length := by
  cases j with
  | null => simp [jsize, serVal]
  | bool b => cases b <;> simp [jsize, serVal]
  | num n =>
    simp only [jsize, serVal]
    exact serInt_length_pos n
  | str s => simp [jsize, serVal, serStr]
  | arr a =>
    cases a with
    | nil => simp [jsize, asize, serVal]
    | cons x tl =>
      have := asize_le_serItems (ind + 1) (JArr.cons x tl)
      simp only [jsize, serVal, List.length_cons, List.length_append]
      omega
  | obj o =>
    cases o with
    | nil => simp [jsize, osize, serVal]
    | cons k v tl =>
      have := osize_le_serFields (ind + 1) (JObj.cons k v tl)
      simp only [jsize, serVal, List.length_cons, List.length_append]
      omega

theorem asize_le_serItems (ind : Nat) (a : JArr) : asize a ≤ (serItems ind a).length + 2 := by
  cases a with
  | nil => simp [asize, serItems]
  | cons x tl =>
    cases tl with
    | nil =>
      have := jsize_le_serVal ind x
      simp only [asize, serItems]
      omega
    | cons y tl2 =>
      have h1 := jsize_le_serVal ind x
      have h2 := asize_le_serItems ind (JArr.cons y tl2)
      simp only [asize, serItems, List.length_append, List.length_cons] at *
      omega

theorem osize_le_serFields (ind : Nat) (o : JObj) : osize o ≤ (serFields ind o).length + 2 := by
  cases o with
  | nil => simp [osize, serFields]
  | cons k v tl =>
    cases tl with
    | nil =>
      have := jsize_le_serVal ind v
      simp only [osize, serFields, List.length_append, List.length_cons]
      omega
    | cons k2 v2 tl2 =>
      have h1 := jsize_le_serVal ind v
      have h2 := osize_le_serFields ind (JObj.cons k2 v2 tl2)
      simp only [osize, serFields, List.length_append, List.length_cons] at *
      omega

end

/-- JSON.parse recovers exactly the value JSON.stringify(v, null, 2) wrote. -/
theorem Json_parse_serVal (j : Json) : Json.parse (serVal 0 j) = some j := by
  unfold Json.parse
  have h1 : parseVal (2 * (serVal 0 j).length + 2) (serVal 0 j ++ []) = some (j, []) :=
    rtVal j _ 0 [] (by have := jsize_le_serVal 0 j; omega) trivial
  rw [List.append_nil] at h1
  rw [h1]
  rfl

/-!
The server (src/server.js).  The filesystem is the logs directory; the server
only ever writes the aggregate file app_logs.txt and the per-type files
`TYPE_logs.txt` for the three validated types, so the directory is modelled by
those four files.  Reading any other name finds no file.
-/

/-- The record delimiter written after each detailed entry: 50 equals signs. -/
def delim : Str := List.replicate 50 '='

structure Store where
  appLogs : Option Str
  apiFailedLogs : Option Str
  logLogs : Option Str
  errorLogs : Option Str

/-- A fresh logs directory: no log file exists yet. -/
def emptyStore : Store := ⟨none, none, none, none⟩

def getFile (st : Store) (name : Str) : Option Str :=
  if name = "app_logs.txt".toList then st.appLogs
  else if name = "api-failed_logs.txt".toList then st.apiFailedLogs
  else if name = "log_logs.txt".toList then st.logLogs
  else if name = "error_logs.txt".toList then st.errorLogs
  else none

/-- fs.writeFile: truncating write, creating the file when absent. -/
def setFile (st : Store) (name : Str) (content : Str) : Store :=
  if name = "app_logs.txt".toList then { st with appLogs := some content }
  else if name = "api-failed_logs.txt".toList then { st with apiFailedLogs := some content }
  else if name = "log_logs.txt".toList then { st with logLogs := some content }
  else if name = "error_logs.txt".toList then { st with errorLogs := some content }
  else st

/-- fs.appendFile: appends, creating the file when absent. -/
def appendFile (st : Store) (name : Str) (content : Str) : Store :=
  setFile st name ((getFile st name).getD [] ++ content)

/-- The logEntry object built by Logger.log. -/
structure Event where
  timestamp : Str
  type : Str
  title : Str
  description : Str
  metadata : JObj

def toJson (e : Event) : Json :=
  .obj (.cons "timestamp".toList (.str e.timestamp)
    (.cons "type".toList (.str e.type)
    (.cons "title".toList (.str e.title)
    (.cons "description".toList (.str e.description)
    (.cons "metadata".toList (.obj e.metadata) .nil)))))

/-- ASCII model of String.prototype.toUpperCase. -/
def upperChar (c : Char) : Char :=
  if 'a' ≤ c ∧ c ≤ 'z' then Char.ofNat (c.toNat - 32) else c

/-- The compact aggregate line (without the trailing newline):
`[timestamp] [TYPE] title` plus ` - description` when description is truthy. -/
def compactBody (e : Event) : Str :=
  ['['] ++ e.timestamp ++ [']', ' ', '['] ++ e.type.map upperChar ++ [']', ' ']
    ++ e.title
    ++ (if e.description.isEmpty then [] else [' ', '-', ' '] ++ e.description)

/-- The detailed record written to the per-type stream:
JSON.stringify(logEntry, null, 2), a newline, fifty equals signs, a newline. -/
def detailedRecord (e : Event) : Str :=
  serVal 0 (toJson e) ++ ['\n'] ++ delim ++ ['\n']

/-- Logger.log (src/server.js:30): appends the compact line to app_logs.txt
and the detailed record to `type_logs.txt`; always succeeds in the model
(I/O failure is outside it). -/
def Logger.log (st : Store) (e : Event) : Store :=
  appendFile (appendFile st "app_logs.txt".toList (compactBody e ++ ['\n']))
    (e.type ++ "_logs.txt".toList) (detailedRecord e)

def allowedTypes : List Str := ["api-failed".toList, "log".toList, "error".toList]

/-- Request body of POST /api/log; absent fields are none. -/
structure ReqBody where
  type? : Option Str
  title? : Option Str
  description? : Option Str
  metadata? : Option JObj

inductive PostResp where
  | missingFields
  | invalidType
  | created

/-- JavaScript truthiness of an optional string field. -/
def truthyStr : Option Str → Bool
  | none => false
  | some s => !s.isEmpty

def JObj.hasKey : JObj → Str → Bool
  | .nil, _ => false
  | .cons k _ tl, key => if k = key then true else JObj.hasKey tl key

/-- Replace the value at an existing key, keeping its position (JavaScript
property assignment on an existing key). -/
def JObj.setKey : JObj → Str → Json → JObj
  | .nil, _, _ => .nil
  | .cons k v tl, key, val =>
    if k = key then .cons k val tl else .cons k v (JObj.setKey tl key val)

def JObj.append : JObj → JObj → JObj
  | .nil, o => o
  | .cons k v tl, o => .cons k v (JObj.append tl o)

/-- One property of an object literal after a spread: overwrite in place if
the key exists, otherwise add it at the end. -/
def JObj.upsert (o : JObj) (key : Str) (val : Json) : JObj :=
  if o.hasKey key then o.setKey key val else o.append (.cons key val .nil)

def JObj.lookup : JObj → Str → Option Json
  | .nil, _ => none
  | .cons k v tl, key => if k = key then some v else JObj.lookup tl key

/-- The metadata object built by the POST /api/log handler:
`{...metadata, userAgent: .., ip: .., source: 'react-native-app'}`. -/
def mergeMetadata (m : JObj) (ua ipAddr : Str) : JObj :=
  ((m.upsert "userAgent".toList (.str ua)).upsert "ip".toList (.str ipAddr)).upsert
    "source".toList (.str "react-native-app".toList)

/-- POST /api/log handler (src/server.js:65): field validation, type
validation, then Logger.log with the merged metadata. -/
def postLog (body : ReqBody) (ua ipAddr timestamp : Str) (st : Store) :
    PostResp × Store :=
  if truthyStr body.type? = false || truthyStr body.title? = false then
    (.missingFields, st)
  else
    let ty := body.type?.getD []
    if (allowedTypes.contains ty) = false then (.invalidType, st)
    else
      (.created, Logger.log st
        { timestamp := timestamp
          type := ty
          title := body.title?.getD []
          description := body.description?.getD []
          metadata := mergeMetadata (body.metadata?.getD .nil) ua ipAddr })

structure ApiLogsResp where
  success : Bool
  logs : List Str
  count : Nat
  file : Option Str

/-- Filename selection of GET /api/logs (src/server.js:136): a truthy, allowed
type selects its per-type file, anything else falls back to app_logs.txt. -/
def apiLogsFile (type? : Option Str) : Str :=
  match type? with
  | some t =>
    if (!t.isEmpty) && allowedTypes.contains t then t ++ "_logs.txt".toList
    else "app_logs.txt".toList
  | none => "app_logs.txt".toList

/-- GET /api/logs handler (src/server.js:134): read the file, split on
newlines, drop blank lines, keep the last `limit` lines in storage order;
a missing file is answered with an empty success response. -/
def apiLogs (st : Store) (type? : Option Str) (limit : Nat) : ApiLogsResp :=
  let filename := apiLogsFile type?
  match getFile st filename with
  | none => { success := true, logs := [], count := 0, file := none }
  | some d =>
    let lines := (splitOnSeq ['\n'] d).filter nonblank
    let recent := lastN limit lines
    { success := true, logs := recent, count := recent.length, file := some filename }

structure ClearResp where
  success : Bool

/-- The clear-all branch of DELETE /api/logs: writes empty content to the
aggregate file and all three per-type files (a missing file is created; the
per-file catch makes absence non-fatal). -/
def clearAll (_st : Store) : Store :=
  ⟨some [], some [], some [], some []⟩

/-- DELETE /api/logs handler (src/server.js:174): a truthy allowed type
truncates only that type's file, anything else truncates all four files. -/
def clearLogs (st : Store) (type? : Option Str) : ClearResp × Store :=
  match type? with
  | some t =>
    if (!t.isEmpty) && allowedTypes.contains t then
      (⟨true⟩, setFile st (t ++ "_logs.txt".toList) [])
    else (⟨true⟩, clearAll st)
  | none => (⟨true⟩, clearAll st)

inductive ViewEntry where
  | parsed (j : Json)
  | raw (s : Str)

def ViewEntry.isParsed : ViewEntry → Bool
  | .parsed _ => true
  | .raw _ => false

/-- The regex match /\x7b[\s\S]*\x7d/ used on each typed record: greedy, so it
spans from the first opening brace to the last closing brace. -/
def jsonExtract (s : Str) : Option Str :=
  let l := s.dropWhile (fun c => !(c = '\x7b'))
  match l with
  | [] => none
  | _ :: _ =>
    let r := l.reverse.dropWhile (fun c => !(c = '\x7d'))
    if r.isEmpty then none else some r.reverse

/-- Per-record parsing of the typed view (src/server.js:232): extract the
embedded JSON and parse it; any failure falls back to the trimmed raw text. -/
def entryOfRecord (s : Str) : ViewEntry :=
  match jsonExtract s with
  | some m =>
    match Json.parse m with
    | some j => .parsed j
    | none => .raw (trimStr s)
  | none => .raw (trimStr s)

/-- selectedType = type || 'all' in GET /logs. -/
def selectedTypeOf (type? : Option Str) : Str :=
  match type? with
  | some t => if t.isEmpty then "all".toList else t
  | none => "all".toList

/-- GET /logs aggregate branch (src/server.js:212): split app_logs.txt on
newlines, drop blanks, keep the last `limit`, newest first. -/
def viewAggLogs (st : Store) (limit : Nat) : List Str :=
  match st.appLogs with
  | none => ["No logs found".toList]
  | some d => (lastN limit ((splitOnSeq ['\n'] d).filter nonblank)).reverse

/-- GET /logs typed branch (src/server.js:223): split the selected type's file
on the 50-equals delimiter, drop blanks, keep the last `limit`, newest first,
parse each record best-effort. -/
def viewTypedLogs (st : Store) (ty : Str) (limit : Nat) : List ViewEntry :=
  match getFile st (ty ++ "_logs.txt".toList) with
  | none => [.raw "No logs found for this type".toList]
  | some d =>
    ((lastN limit ((splitOnSeq delim d).filter nonblank)).reverse).map entryOfRecord

/-!
The dashboard's string-entry rendering (src/server.js:553) runs inside the
`${...}` substitution of the HTML template literal, so it is ordinary
server-side code, and the pattern is a regex literal:

    /\\[(.+?)\\] \\[(.+?)\\] (.+?)(?:\\s-\\s(.+))?$/

In a regex literal `\\` matches one literal backslash and `[(.+?)\\]` is a
character class of the six characters ( . + ? ) and backslash, matching one
character.  The executing pattern is therefore: a literal backslash, one
class character, a space, a backslash, one class character, a space, a lazy
group `(.+?)`, optionally the five literal characters backslash s - backslash
s followed by a group `(.+)`, then end of input -- and it has only two
capture groups.  The matcher below reproduces the engine's behaviour on this
pattern: leftmost match start, the lazy group extended only when the rest of
the pattern cannot match, `.` excluding line terminators.
-/

/-- JavaScript `.` (without the s flag): any character except line
terminators. -/
def dotCh (c : Char) : Bool :=
  !(c = '\n' || c = '\r' || c = ' ' || c = ' ')

/-- The six characters of the class `[(.+?)\\]` in the executing regex. -/
def bsClass (c : Char) : Bool :=
  c = '(' || c = '.' || c = '+' || c = '?' || c = ')' || c = '\\'

/-- Match `(?:\\s-\\s(.+))?$` -- five literal characters, then the second
group -- against the input remaining after the first group.  Returns the
optional second group on success. -/
def tryTail (s : Str) : Option (Option Str) :=
  match s with
  | [] => some none
  | c1 :: c2 :: c3 :: c4 :: c5 :: d =>
    if (c1 = '\\') && (c2 = 's') && (c3 = '-') && (c4 = '\\') && (c5 = 's')
        && (!d.isEmpty) && d.all dotCh then
      some (some d)
    else none
  | _ => none

/-- Match `(.+?)(?:\\s-\\s(.+))?$`: the shortest nonempty first group after
which the tail matches. -/
def matchG1 (s : Str) : Option (Str × Option Str) :=
  match s with
  | [] => none
  | c :: rest =>
    if dotCh c then
      match tryTail rest with
      | some d => some ([c], d)
      | none =>
        match matchG1 rest with
        | some (t, d) => some (c :: t, d)
        | none => none
    else none

/-- One attempt at a fixed start position: literal backslash, one class
character, space, literal backslash, one class character, space, then the
groups.  The prefix is deterministic, so no backtracking happens in it. -/
def matchAt (s : Str) : Option (Str × Option Str) :=
  match s with
  | b1 :: c1 :: sp1 :: b2 :: c2 :: sp2 :: rest =>
    if (b1 = '\\') && (bsClass c1) && (sp1 = ' ') && (b2 = '\\') && (bsClass c2)
        && (sp2 = ' ') then
      matchG1 rest
    else none
  | _ => none

/-- The whole regex: the engine scans match start positions left to right. -/
def matchCompact (s : Str) : Option (Str × Option Str) :=
  match s with
  | [] => none
  | c :: rest =>
    match matchAt (c :: rest) with
    | some r => some r
    | none => matchCompact rest

/-- Rendering of one string entry (src/server.js:552-571).  When the regex
finds no match, the entry is opaque with the raw line as its title.  When it
matches, the four-variable destructuring `[, timestamp, type, title,
description]` takes the first group as timestamp and the second as type
(title and description are past the end of the two-group match array, so
undefined); rendering then calls type.toLowerCase(), which throws a
TypeError when the optional second group is absent, failing the whole
request. -/
inductive RenderedLine where
  | fields (timestamp ty : Str)
  | plain (title : Str)
  | failed

def renderStringLog (line : Str) : RenderedLine :=
  match matchCompact line with
  | none => .plain line
  | some (g1, some g2) => .fields g1 g2
  | some (_, none) => .failed

/-!
Well-formedness of the stored streams, and how the server operations act on
them.  A stream is well formed when the remainder after its last separator
occurrence is empty (aggregate) or a single newline (typed streams); this is
what every reachable store satisfies and what the read-back arguments use.
-/

theorem firstSplit_singleton_of_not_mem {ch : Char} {x : Str}
    (h : ∀ c ∈ x, ¬ c = ch) : firstSplit [ch] x = none := by
  rw [firstSplit_eq_none_iff (by simp)]
  rintro ⟨a, t, hat⟩
  apply h ch _ rfl
  rw [← hat]
  simp

theorem firstSplit_replicate_cons {n : Nat} {ch c : Char} {x : Str} (hc : ¬ c = ch)
    (hx : firstSplit (List.replicate (n + 1) ch) x = none) :
    firstSplit (List.replicate (n + 1) ch) (c :: x) = none := by
  rw [firstSplit_eq_none_iff (by simp)] at hx ⊢
  intro hinf
  rcases List.infix_cons_iff.1 hinf with hpre | hinf2
  · obtain ⟨t, ht⟩ := hpre
    rw [List.replicate_succ, List.cons_append] at ht
    exact hc (List.head_eq_of_cons_eq ht).symm
  · exact hx hinf2

theorem firstSplit_replicate_concat_char {n : Nat} {ch c : Char} {x : Str} (hc : ¬ c = ch)
    (hx : firstSplit (List.replicate (n + 1) ch) x = none) :
    firstSplit (List.replicate (n + 1) ch) (x ++ [c]) = none := by
  rw [firstSplit_eq_none_iff (by simp)] at hx ⊢
  rintro ⟨a, b, hb⟩
  rcases List.eq_nil_or_concat b with hnil | ⟨b2, c2, hbc⟩
  · -- the occurrence ends exactly at the appended character
    subst hnil
    have hlast := congrArg List.getLast? hb
    rw [List.getLast?_concat] at hlast
    have h2 : (a ++ List.replicate (n + 1) ch ++ ([] : Str)).getLast? = some ch := by
      rw [List.append_nil, List.replicate_succ', ← List.append_assoc, List.getLast?_concat]
    rw [h2] at hlast
    exact hc (Option.some.inj hlast).symm
  · -- the occurrence lies inside x
    subst hbc
    apply hx
    have hb2 : (a ++ List.replicate (n + 1) ch ++ b2) ++ [c2] = x ++ [c] := by
      simpa [List.append_assoc] using hb
    have hlen : (a ++ List.replicate (n + 1) ch ++ b2).length = x.length := by
      have h3 := congrArg List.length hb2
      simp only [List.length_append, List.length_cons, List.length_replicate,
        List.length_nil] at h3 ⊢
      omega
    obtain ⟨h1, _⟩ := List.append_inj hb2 hlen
    exact ⟨a, b2, h1⟩

theorem delim_eq : delim = List.replicate (49 + 1) '=' := rfl

theorem nl_eq : ['\n'] = List.replicate (0 + 1) '\n' := rfl

/-- Aggregate stream well-formedness: content is empty or ends with a
newline, phrased on the split. -/
def AggWF (o : Option Str) : Prop :=
  match o with
  | none => True
  | some c => (splitOnSeq ['\n'] c).getLastD [] = []

/-- Typed stream well-formedness: the remainder after the last delimiter
occurrence is empty or a single newline. -/
def TypedWF (o : Option Str) : Prop :=
  match o with
  | none => True
  | some c =>
    (splitOnSeq delim c).getLastD [] = [] ∨ (splitOnSeq delim c).getLastD [] = ['\n']

def StoreWF (st : Store) : Prop :=
  AggWF st.appLogs ∧ TypedWF st.apiFailedLogs ∧ TypedWF st.logLogs ∧ TypedWF st.errorLogs

theorem emptyStore_WF : StoreWF emptyStore := ⟨trivial, trivial, trivial, trivial⟩

theorem splitOnSeq_nil_getLastD (d : Str) : (splitOnSeq d []).getLastD [] = [] := by
  have h0 : firstSplit d ([] : Str) = none := rfl
  rw [splitOnSeq_of_none h0]
  rfl

theorem AggWF_getD {o : Option Str} (h : AggWF o) :
    (splitOnSeq ['\n'] (o.getD [])).getLastD [] = [] := by
  cases o with
  | none => exact splitOnSeq_nil_getLastD _
  | some c => exact h

theorem TypedWF_getD {o : Option Str} (h : TypedWF o) :
    (splitOnSeq delim (o.getD [])).getLastD [] = []
      ∨ (splitOnSeq delim (o.getD [])).getLastD [] = ['\n'] := by
  cases o with
  | none => exact Or.inl (splitOnSeq_nil_getLastD _)
  | some c => exact h

theorem getLastD_append_of_ne_nil {α : Type} {A B : List α} (dflt : α) (h : B ≠ []) :
    (A ++ B).getLastD dflt = B.getLastD dflt := by
  simp [List.getLastD_eq_getLast?, List.getLast?_append_of_ne_nil _ h]

theorem splitOnSeq_getLastD_suffix {d : Str} (hd : d ≠ []) (s : Str) :
    (splitOnSeq d s).getLastD [] <:+ s := by
  have H : ∀ (n : Nat) (s : Str), s.length ≤ n → (splitOnSeq d s).getLastD [] <:+ s := by
    intro n
    induction n with
    | zero =>
      intro s hle
      have hs : s = [] := List.eq_nil_of_length_eq_zero (Nat.le_zero.1 hle)
      subst hs
      rw [splitOnSeq_nil_getLastD]
    | succ n ih =>
      intro s hle
      cases h : firstSplit d s with
      | none =>
        rw [splitOnSeq_of_none h]
        exact List.suffix_refl s
      | some p =>
        obtain ⟨a, b⟩ := p
        have hlen := firstSplit_length_le h
        have hdl : 0 < d.length := List.length_pos.2 hd
        rw [splitOnSeq_cons hd h]
        obtain ⟨x, xs, hxs⟩ : ∃ x xs, splitOnSeq d b = x :: xs := by
          cases hq : splitOnSeq d b with
          | nil => exact absurd hq splitOnSeq_ne_nil
          | cons x xs => exact ⟨x, xs, rfl⟩
        have hrec := ih b (by omega)
        have hsuf : b <:+ s := by
          rw [firstSplit_append_eq h]
          exact List.suffix_append (a ++ d) b
        rw [hxs] at hrec
        rw [hxs]
        have hcc : (a :: x :: xs).getLastD [] = (x :: xs).getLastD [] := by
          simp [List.getLastD_eq_getLast?]
        rw [hcc]
        exact hrec.trans hsuf
  exact H s.length s le_rfl

theorem not_mem_of_firstSplit_singleton_none {ch : Char} {x : Str}
    (h : firstSplit [ch] x = none) : ch ∉ x := by
  intro hmem
  rw [firstSplit_eq_none_iff (by simp)] at h
  obtain ⟨s, t, hst⟩ := List.append_of_mem hmem
  exact h ⟨s, t, by rw [hst]; simp⟩

theorem splitOnSeq_delim_nl : splitOnSeq delim ['\n'] = [['\n']] :=
  splitOnSeq_of_none (by decide)

/-- Splitting one delimiter-free record (with an optional whitespace carry-in
from the previous record) off the front of a typed stream. -/
theorem split_chunk (lp J t : Str) (hlp : lp = [] ∨ lp = ['\n'])
    (hJ : firstSplit delim J = none) :
    splitOnSeq delim (lp ++ (J ++ ['\n'] ++ delim ++ ['\n'] ++ t))
      = (lp ++ (J ++ ['\n'])) :: splitOnSeq delim (['\n'] ++ t) := by
  have hre : lp ++ (J ++ ['\n'] ++ delim ++ ['\n'] ++ t)
      = (lp ++ (J ++ ['\n'])) ++ delim ++ (['\n'] ++ t) := by
    simp [List.append_assoc]
  rw [hre]
  have hnoJnl : firstSplit delim (J ++ ['\n']) = none := by
    rw [delim_eq] at hJ ⊢
    exact firstSplit_replicate_concat_char (by decide) hJ
  have hno : firstSplit delim (lp ++ (J ++ ['\n'])) = none := by
    rcases hlp with h | h
    · rw [h, List.nil_append]; exact hnoJnl
    · rw [h]
      rw [delim_eq] at hnoJnl ⊢
      exact firstSplit_replicate_cons (by decide) hnoJnl
  have hlast : (lp ++ (J ++ ['\n'])).getLast? ≠ some '=' := by
    rw [show lp ++ (J ++ ['\n']) = (lp ++ J) ++ ['\n'] by simp [List.append_assoc],
      List.getLast?_concat]
    decide
  rw [delim_eq] at hno ⊢
  exact splitOnSeq_replicate_concat hno hlast

/-- Splitting one newline-free aggregate line off the front of the aggregate
stream. -/
theorem split_agg_chunk (body t : Str) (hbody : ∀ c ∈ body, ¬ c = '\n') :
    splitOnSeq ['\n'] (body ++ ['\n'] ++ t) = body :: splitOnSeq ['\n'] t := by
  have hno : firstSplit ['\n'] body = none := firstSplit_singleton_of_not_mem hbody
  have hlast : body.getLast? ≠ some '\n' := by
    intro hc
    cases hb : body with
    | nil => rw [hb] at hc; simp at hc
    | cons c cs =>
      rw [hb] at hc
      have hmem : '\n' ∈ body := by
        rw [hb]
        have := List.getLast?_eq_getLast (c :: cs) (by simp)
        rw [this] at hc
        exact (Option.some.inj hc) ▸ List.getLast_mem _
      exact hbody '\n' hmem rfl
  rw [nl_eq] at hno ⊢
  exact splitOnSeq_replicate_concat hno hlast

/-- Effect of one append on the split of a well-formed typed stream. -/
theorem split_typed_append (old J : Str)
    (hold : (splitOnSeq delim old).getLastD [] = []
      ∨ (splitOnSeq delim old).getLastD [] = ['\n'])
    (hJ : firstSplit delim J = none) :
    splitOnSeq delim (old ++ (J ++ ['\n'] ++ delim ++ ['\n']))
      = (splitOnSeq delim old).dropLast
        ++ [(splitOnSeq delim old).getLastD [] ++ (J ++ ['\n']), ['\n']] := by
  have hdne : delim ≠ [] := by rw [delim_eq]; simp
  rw [splitOnSeq_append hdne]
  congr 1
  rw [show (splitOnSeq delim old).getLastD [] ++ (J ++ ['\n'] ++ delim ++ ['\n'])
    = (splitOnSeq delim old).getLastD [] ++ (J ++ ['\n'] ++ delim ++ ['\n'] ++ []) by simp]
  rw [split_chunk _ J [] hold hJ]
  rw [show (['\n'] ++ ([] : Str)) = ['\n'] by simp, splitOnSeq_delim_nl]

/-- Effect of one append on the split of a well-formed aggregate stream. -/
theorem split_agg_append (old body : Str)
    (hold : (splitOnSeq ['\n'] old).getLastD [] = [])
    (hbody : ∀ c ∈ body, ¬ c = '\n') :
    splitOnSeq ['\n'] (old ++ (body ++ ['\n']))
      = (splitOnSeq ['\n'] old).dropLast ++ [body, []] := by
  rw [splitOnSeq_append (by simp), hold]
  congr 1
  rw [List.nil_append,
    show body ++ ['\n'] = body ++ ['\n'] ++ [] by simp,
    split_agg_chunk body [] hbody]
  have h0 : firstSplit ['\n'] ([] : Str) = none := rfl
  rw [splitOnSeq_of_none h0]

/-- A delimiter-specialised form of splitOnSeq_replicate_concat. -/
theorem splitOnSeq_delim_concat {x y : Str}
    (hx : firstSplit delim x = none) (hlast : x.getLast? ≠ some '=') :
    splitOnSeq delim (x ++ delim ++ y) = x :: splitOnSeq delim y := by
  rw [delim_eq] at hx ⊢
  exact splitOnSeq_replicate_concat hx hlast

/-- Appending a newline-terminated line keeps the aggregate stream well
formed, whatever the line contains. -/
theorem agg_concat_nl_getLastD (s : Str) :
    (splitOnSeq ['\n'] (s ++ ['\n'])).getLastD [] = [] := by
  rw [splitOnSeq_append (by simp) s ['\n']]
  have hno : firstSplit ['\n'] ((splitOnSeq ['\n'] s).getLastD []) = none :=
    splitOnSeq_getLast_noOcc (by simp) s
  have hmem := not_mem_of_firstSplit_singleton_none hno
  rw [show (splitOnSeq ['\n'] s).getLastD [] ++ ['\n']
      = (splitOnSeq ['\n'] s).getLastD [] ++ ['\n'] ++ [] by simp,
    split_agg_chunk _ [] (fun c hc h => hmem (by rw [h] at hc; exact hc))]
  have h0 : firstSplit ['\n'] ([] : Str) = none := rfl
  rw [splitOnSeq_of_none h0,
    getLastD_append_of_ne_nil ([] : Str) (by simp)]
  rfl

/-- Appending the delimiter and a newline to a stream that ends with a
newline leaves a well-formed typed stream. -/
theorem typed_stream_getLastD (s : Str) (hs : s.getLast? = some '\n') :
    (splitOnSeq delim (s ++ delim ++ ['\n'])).getLastD [] = ['\n'] := by
  have hdne : delim ≠ [] := by rw [delim_eq]; simp
  rw [List.append_assoc, splitOnSeq_append hdne s (delim ++ ['\n'])]
  have hno : firstSplit delim ((splitOnSeq delim s).getLastD []) = none :=
    splitOnSeq_getLast_noOcc hdne s
  have hsuf := splitOnSeq_getLastD_suffix hdne s
  have hlast : ((splitOnSeq delim s).getLastD []).getLast? ≠ some '=' := by
    cases hlp : (splitOnSeq delim s).getLastD [] with
    | nil => simp
    | cons c cs =>
      obtain ⟨t, ht⟩ := hsuf
      rw [hlp] at ht
      have h2 := List.getLast?_append_of_ne_nil t
        (show (c :: cs) ≠ [] by simp)
      rw [ht] at h2
      rw [hs] at h2
      intro hc
      rw [hc] at h2
      exact absurd (Option.some.inj h2) (by decide)
  rw [← List.append_assoc, splitOnSeq_delim_concat hno hlast, splitOnSeq_delim_nl,
    getLastD_append_of_ne_nil ([] : Str) (by simp)]
  rfl

/-- The well-formed shape of a freshly appended aggregate stream. -/
theorem AggWF_append_entry (o : Option Str) (body : Str) :
    AggWF (some ((o.getD []) ++ (body ++ ['\n']))) := by
  show (splitOnSeq ['\n'] ((o.getD []) ++ (body ++ ['\n']))).getLastD [] = []
  rw [← List.append_assoc]
  exact agg_concat_nl_getLastD _

/-- The well-formed shape of a freshly appended typed stream. -/
theorem TypedWF_append_record (o : Option Str) (J : Str) :
    TypedWF (some ((o.getD []) ++ (J ++ ['\n'] ++ delim ++ ['\n']))) := by
  refine Or.inr ?_
  have h1 : (o.getD []) ++ (J ++ ['\n'] ++ delim ++ ['\n'])
      = ((o.getD []) ++ (J ++ ['\n'])) ++ delim ++ ['\n'] := by
    simp [List.append_assoc]
  show (splitOnSeq delim ((o.getD []) ++ (J ++ ['\n'] ++ delim ++ ['\n']))).getLastD []
    = ['\n']
  rw [h1]
  apply typed_stream_getLastD
  rw [show (o.getD []) ++ (J ++ ['\n']) = ((o.getD []) ++ J) ++ ['\n'] by
    simp [List.append_assoc], List.getLast?_concat]

/-- Effect of Logger.log on the aggregate file. -/
theorem Logger_log_appLogs (st : Store) (e : Event) (hty : e.type ∈ allowedTypes) :
    (Logger.log st e).appLogs
      = some ((st.appLogs.getD []) ++ (compactBody e ++ ['\n'])) := by
  obtain ⟨ts, ty, ti, de, md⟩ := e
  obtain ⟨a, f, l, r⟩ := st
  simp only [allowedTypes, List.mem_cons, List.not_mem_nil, or_false] at hty
  rcases hty with h | h | h <;> subst h <;> rfl

/-- Effect of Logger.log on the type's own file. -/
theorem Logger_log_typed (st : Store) (e : Event) (hty : e.type ∈ allowedTypes) :
    getFile (Logger.log st e) (e.type ++ "_logs.txt".toList)
      = some (((getFile st (e.type ++ "_logs.txt".toList)).getD [])
          ++ detailedRecord e) := by
  obtain ⟨ts, ty, ti, de, md⟩ := e
  obtain ⟨a, f, l, r⟩ := st
  simp only [allowedTypes, List.mem_cons, List.not_mem_nil, or_false] at hty
  rcases hty with h | h | h <;> subst h <;> rfl

/-- Logger.log leaves the other types' files unchanged. -/
theorem Logger_log_frame (st : Store) (e : Event) (hty : e.type ∈ allowedTypes)
    (u : Str) (hu : u ∈ allowedTypes) (hne : ¬ u = e.type) :
    getFile (Logger.log st e) (u ++ "_logs.txt".toList)
      = getFile st (u ++ "_logs.txt".toList) := by
  obtain ⟨ts, ty, ti, de, md⟩ := e
  obtain ⟨a, f, l, r⟩ := st
  simp only [allowedTypes, List.mem_cons, List.not_mem_nil, or_false] at hty hu
  rcases hty with h | h | h <;> subst h <;>
    rcases hu with h2 | h2 | h2 <;> subst h2 <;> first
      | exact absurd rfl hne
      | rfl

/-- Logger.log preserves the store invariant. -/
theorem Logger_log_WF {st : Store} {e : Event} (hty : e.type ∈ allowedTypes)
    (hwf : StoreWF st) : StoreWF (Logger.log st e) := by
  obtain ⟨ts, ty, ti, de, md⟩ := e
  obtain ⟨a, f, l, r⟩ := st
  obtain ⟨h1, h2, h3, h4⟩ := hwf
  simp only [allowedTypes, List.mem_cons, List.not_mem_nil, or_false] at hty
  rcases hty with h | h | h <;> subst h
  · exact ⟨AggWF_append_entry a _, TypedWF_append_record f _, h3, h4⟩
  · exact ⟨AggWF_append_entry a _, h2, TypedWF_append_record l _, h4⟩
  · exact ⟨AggWF_append_entry a _, h2, h3, TypedWF_append_record r _⟩

/-- The per-type stream of a well-formed store is well formed. -/
theorem StoreWF_typed (st : Store) (ty : Str) (hty : ty ∈ allowedTypes)
    (hwf : StoreWF st) : TypedWF (getFile st (ty ++ "_logs.txt".toList)) := by
  simp only [allowedTypes, List.mem_cons, List.not_mem_nil, or_false] at hty
  rcases hty with h | h | h <;> subst h
  · exact hwf.2.1
  · exact hwf.2.2.1
  · exact hwf.2.2.2

theorem nonblank_nil : nonblank [] = false := rfl

theorem nonblank_nl : nonblank ['\n'] = false := by decide

/-- Every compact line is kept by the blank-line filter: it starts with an
opening bracket. -/
theorem compactBody_nonblank (e : Event) : nonblank (compactBody e) = true := by
  apply nonblank_of_mem (c := '[')
  · show '[' ∈ ['['] ++ _
    simp
  · decide

/-- lastN keeps the most recent element. -/
theorem lastN_concat_mem {n : Nat} (h : 1 ≤ n) (m : List α) (a : α) :
    a ∈ lastN n (m ++ [a]) := by
  rw [lastN, if_neg (by omega)]
  have hle : (m ++ [a]).length - n ≤ m.length := by
    simp only [List.length_append, List.length_cons, List.length_nil]
    omega
  rw [List.drop_append_of_le_length hle]
  simp

/-- The most recent element comes first after the newest-first reversal. -/
theorem lastN_concat_reverse_head {n : Nat} (h : 1 ≤ n) (m : List α) (a : α) :
    (lastN n (m ++ [a])).reverse.head? = some a := by
  rw [lastN, if_neg (by omega)]
  have hle : (m ++ [a]).length - n ≤ m.length := by
    simp only [List.length_append, List.length_cons, List.length_nil]
    omega
  rw [List.drop_append_of_le_length hle]
  simp

/-- The serialization of a JSON object starts with an opening brace and ends
with a closing brace. -/
theorem serObj_shape (o : JObj) :
    ∃ mid, serVal 0 (.obj o) = '\x7b' :: (mid ++ ['\x7d']) := by
  cases o with
  | nil => exact ⟨[], rfl⟩
  | cons k v tl =>
    refine ⟨'\n' :: (pad 1 ++ serFields 1 (.cons k v tl) ++ ['\n']), ?_⟩
    show '\x7b' :: '\n' :: (pad (0 + 1) ++ serFields (0 + 1) (.cons k v tl)
        ++ '\n' :: (pad 0 ++ ['\x7d']))
      = '\x7b' :: (('\n' :: (pad 1 ++ serFields 1 (.cons k v tl) ++ ['\n'])) ++ ['\x7d'])
    simp [pad]

/-- Extracting the embedded JSON out of a well-formed record: the greedy
brace-to-brace match recovers exactly the serialized object. -/
theorem jsonExtract_record (lp : Str) (hlp : lp = [] ∨ lp = ['\n']) (o : JObj) :
    jsonExtract (lp ++ (serVal 0 (.obj o) ++ ['\n'])) = some (serVal 0 (.obj o)) := by
  obtain ⟨mid, hm⟩ := serObj_shape o
  rw [hm]
  have hdrop : ∀ t : Str,
      List.dropWhile (fun c => !(c = '\x7b')) ('\n' :: t)
        = List.dropWhile (fun c => !(c = '\x7b')) t := by
    intro t
    rw [List.dropWhile_cons, if_pos (by decide)]
  have hcore : jsonExtract ('\x7b' :: (mid ++ ['\x7d']) ++ ['\n'])
      = some ('\x7b' :: (mid ++ ['\x7d'])) := by
    rw [jsonExtract]
    have h1 : List.dropWhile (fun c => !(c = '\x7b'))
        ('\x7b' :: (mid ++ ['\x7d']) ++ ['\n'])
        = '\x7b' :: ((mid ++ ['\x7d']) ++ ['\n']) := by
      rw [List.cons_append, List.dropWhile_cons, if_neg (by decide)]
    rw [h1]
    have h2 : ('\x7b' :: ((mid ++ ['\x7d']) ++ ['\n'])).reverse
        = '\n' :: ('\x7d' :: (mid.reverse ++ ['\x7b'])) := by
      simp
    rw [h2]
    have h3 : List.dropWhile (fun c => !(c = '\x7d'))
        ('\n' :: ('\x7d' :: (mid.reverse ++ ['\x7b'])))
        = '\x7d' :: (mid.reverse ++ ['\x7b']) := by
      rw [List.dropWhile_cons, if_pos (by decide), List.dropWhile_cons,
        if_neg (by decide)]
    rw [h3]
    simp
  rcases hlp with h | h <;> subst h
  · rw [List.nil_append]
    exact hcore
  · rw [jsonExtract] at hcore ⊢
    rw [show ['\n'] ++ ('\x7b' :: (mid ++ ['\x7d']) ++ ['\n'])
      = '\n' :: ('\x7b' :: (mid ++ ['\x7d']) ++ ['\n']) from rfl, hdrop]
    exact hcore

/-- Best-effort parsing recovers the original object from a well-formed
record. -/
theorem entryOfRecord_record (lp : Str) (hlp : lp = [] ∨ lp = ['\n']) (o : JObj) :
    entryOfRecord (lp ++ (serVal 0 (.obj o) ++ ['\n'])) = .parsed (.obj o) := by
  simp only [entryOfRecord, jsonExtract_record lp hlp o, Json_parse_serVal]

/-- The field list of the serialized log entry. -/
def toJsonFields (e : Event) : JObj :=
  .cons "timestamp".toList (.str e.timestamp)
    (.cons "type".toList (.str e.type)
    (.cons "title".toList (.str e.title)
    (.cons "description".toList (.str e.description)
    (.cons "metadata".toList (.obj e.metadata) .nil))))

theorem toJson_eq (e : Event) : toJson e = .obj (toJsonFields e) := rfl

theorem emptyStore_getFile (name : Str) : getFile emptyStore name = none := by
  rw [getFile]
  repeat' split
  all_goals rfl

/-- Repeated appends, as performed by successive accepted submissions. -/
def appendAll (st : Store) (es : List Event) : Store :=
  es.foldl Logger.log st

theorem appendAll_nil (st : Store) : appendAll st [] = st := rfl

theorem appendAll_cons (st : Store) (e : Event) (es : List Event) :
    appendAll st (e :: es) = appendAll (Logger.log st e) es := rfl

theorem appendAll_appLogs_some (es : List Event) : ∀ (st : Store) (a : Str),
    (∀ e ∈ es, e.type ∈ allowedTypes) → st.appLogs = some a →
    (appendAll st es).appLogs
      = some (a ++ (es.map (fun e => compactBody e ++ ['\n'])).flatten) := by
  induction es with
  | nil =>
    intro st a _ ha
    rw [appendAll_nil, ha]
    simp
  | cons e es ih =>
    intro st a hty ha
    have h1 : (Logger.log st e).appLogs = some (a ++ (compactBody e ++ ['\n'])) := by
      rw [Logger_log_appLogs st e (hty e (List.mem_cons_self e es)), ha]
      rfl
    rw [appendAll_cons, ih _ _ (fun x hx => hty x (List.mem_cons_of_mem e hx)) h1]
    simp

theorem appendAll_typed_some (ty : Str) (es : List Event) : ∀ (st : Store) (a : Str),
    (∀ e ∈ es, e.type = ty) → (∀ e ∈ es, e.type ∈ allowedTypes) →
    getFile st (ty ++ "_logs.txt".toList) = some a →
    getFile (appendAll st es) (ty ++ "_logs.txt".toList)
      = some (a ++ (es.map detailedRecord).flatten) := by
  induction es with
  | nil =>
    intro st a _ _ ha
    rw [appendAll_nil, ha]
    simp
  | cons e es ih =>
    intro st a hall hty ha
    have he : e.type = ty := hall e (List.mem_cons_self e es)
    have h1 : getFile (Logger.log st e) (ty ++ "_logs.txt".toList)
        = some (a ++ detailedRecord e) := by
      have h2 := Logger_log_typed st e (hty e (List.mem_cons_self e es))
      rw [he] at h2
      rw [h2, ha]
      rfl
    rw [appendAll_cons, ih _ _ (fun x hx => hall x (List.mem_cons_of_mem e hx))
      (fun x hx => hty x (List.mem_cons_of_mem e hx)) h1]
    simp

/-- Aggregate content accumulated from an empty directory. -/
theorem appendAll_empty_appLogs (e : Event) (es : List Event)
    (hty : ∀ x ∈ (e :: es), x.type ∈ allowedTypes) :
    (appendAll emptyStore (e :: es)).appLogs
      = some (((e :: es).map (fun x => compactBody x ++ ['\n'])).flatten) := by
  have h1 : (Logger.log emptyStore e).appLogs
      = some ([] ++ (compactBody e ++ ['\n'])) := by
    rw [Logger_log_appLogs emptyStore e (hty e (List.mem_cons_self e es))]
    rfl
  rw [appendAll_cons,
    appendAll_appLogs_some es _ _ (fun x hx => hty x (List.mem_cons_of_mem e hx)) h1]
  simp

/-- Typed content accumulated from an empty directory. -/
theorem appendAll_empty_typed (ty : Str) (e : Event) (es : List Event)
    (hall : ∀ x ∈ (e :: es), x.type = ty)
    (hty : ∀ x ∈ (e :: es), x.type ∈ allowedTypes) :
    getFile (appendAll emptyStore (e :: es)) (ty ++ "_logs.txt".toList)
      = some (((e :: es).map detailedRecord).flatten) := by
  have he : e.type = ty := hall e (List.mem_cons_self e es)
  have h1 : getFile (Logger.log emptyStore e) (ty ++ "_logs.txt".toList)
      = some ([] ++ detailedRecord e) := by
    have h2 := Logger_log_typed emptyStore e (hty e (List.mem_cons_self e es))
    rw [he, emptyStore_getFile] at h2
    rw [h2]
    rfl
  rw [appendAll_cons,
    appendAll_typed_some ty es _ _ (fun x hx => hall x (List.mem_cons_of_mem e hx))
      (fun x hx => hty x (List.mem_cons_of_mem e hx)) h1]
  simp

/-- Splitting a stream of newline-terminated lines gives the lines plus one
trailing empty piece. -/
theorem agg_split_flatten (bodies : List Str)
    (h : ∀ b ∈ bodies, ∀ c ∈ b, ¬ c = '\n') :
    splitOnSeq ['\n'] ((bodies.map (fun b => b ++ ['\n'])).flatten)
      = bodies ++ [[]] := by
  induction bodies with
  | nil =>
    have h0 : firstSplit ['\n'] ([] : Str) = none := rfl
    rw [List.map_nil, List.flatten_nil, splitOnSeq_of_none h0]
    rfl
  | cons b bs ih =>
    rw [List.map_cons, List.flatten_cons,
      split_agg_chunk b _ (h b (List.mem_cons_self b bs)),
      ih (fun x hx c hc => h x (List.mem_cons_of_mem b hx) c hc)]
    rfl

theorem filter_nonblank_bodies (bodies : List Str)
    (h : ∀ b ∈ bodies, nonblank b = true) :
    (bodies ++ [[]]).filter nonblank = bodies := by
  rw [List.filter_append, List.filter_eq_self.2 h]
  simp [List.filter_cons, nonblank_nil]

theorem filter_nonblank_concat_blank (A : List Str) (b : Str) (hb : nonblank b = true)
    (z : Str) (hz : nonblank z = false) :
    (A ++ [b, z]).filter nonblank = A.filter nonblank ++ [b] := by
  simp [List.filter_append, List.filter_cons, hb, hz]

theorem lastN_map (f : α → β) (n : Nat) (l : List α) :
    lastN n (l.map f) = (lastN n l).map f := by
  rw [lastN, lastN]
  by_cases h : n = 0
  · simp [h]
  · rw [if_neg h, if_neg h, List.length_map, List.map_drop]

theorem lastN_length {n : Nat} (h1 : 1 ≤ n) (l : List α) (h2 : n ≤ l.length) :
    (lastN n l).length = n := by
  rw [lastN, if_neg (by omega), List.length_drop]
  omega

/-- The mapped, filtered split of a flat list of detailed records: one parsed
entry per event, in storage order. -/
theorem typed_entries (es : List Event)
    (hJ : ∀ e ∈ es, firstSplit delim (serVal 0 (toJson e)) = none) :
    ∀ lp, (lp = [] ∨ lp = ['\n']) →
    ((splitOnSeq delim (lp ++ (es.map detailedRecord).flatten)).filter nonblank).map
        entryOfRecord
      = es.map (fun e => ViewEntry.parsed (toJson e)) := by
  induction es with
  | nil =>
    intro lp hlp
    rw [List.map_nil, List.flatten_nil, List.append_nil, List.map_nil]
    rcases hlp with h | h <;> subst h
    · rw [splitOnSeq_of_none (show firstSplit delim [] = none from rfl)]
      simp [List.filter_cons, nonblank_nil]
    · rw [splitOnSeq_of_none (by decide : firstSplit delim ['\n'] = none)]
      simp [List.filter_cons, nonblank_nl]
  | cons e es ih =>
    intro lp hlp
    rw [List.map_cons, List.flatten_cons]
    have hsh : lp ++ (detailedRecord e ++ (es.map detailedRecord).flatten)
        = lp ++ (serVal 0 (toJson e) ++ ['\n'] ++ delim ++ ['\n']
            ++ (es.map detailedRecord).flatten) := by
      rw [detailedRecord]
    rw [hsh, split_chunk lp _ _ hlp (hJ e (List.mem_cons_self e es))]
    have hnb : nonblank (lp ++ (serVal 0 (toJson e) ++ ['\n'])) = true := by
      obtain ⟨mid, hm⟩ := serObj_shape (toJsonFields e)
      rw [toJson_eq, hm]
      apply nonblank_of_mem (c := '\x7b')
      · simp
      · decide
    rw [List.filter_cons, if_pos hnb, List.map_cons]
    have hhead : entryOfRecord (lp ++ (serVal 0 (toJson e) ++ ['\n']))
        = ViewEntry.parsed (toJson e) := by
      rw [toJson_eq]
      exact entryOfRecord_record lp hlp (toJsonFields e)
    rw [hhead, List.map_cons,
      ih (fun x hx => hJ x (List.mem_cons_of_mem e hx)) ['\n'] (Or.inr rfl)]

theorem getFile_app (st : Store) : getFile st ("app_logs.txt".toList) = st.appLogs := by
  rw [getFile, if_pos rfl]

theorem lastN_nil (n : Nat) : lastN n ([] : List α) = [] := by
  rw [lastN]
  by_cases h : n = 0 <;> simp [h]

theorem contains_eq_false_of_not_mem {l : List Str} {a : Str} (h : ¬ a ∈ l) :
    l.contains a = false := by
  cases hc : l.contains a
  · rfl
  · exact absurd (List.elem_iff.1 hc) h

/-- Number of fields of a JSON object. -/
def olen : JObj → Nat
  | .nil => 0
  | .cons _ _ tl => olen tl + 1

theorem JObj.lookup_setKey_self (o : JObj) (k : Str) (v : Json)
    (h : o.hasKey k = true) : (o.setKey k v).lookup k = some v := by
  have H : ∀ (n : Nat) (o : JObj), olen o ≤ n → o.hasKey k = true →
      (o.setKey k v).lookup k = some v := by
    intro n
    induction n with
    | zero =>
      intro o hle h2
      cases o with
      | nil => rw [JObj.hasKey] at h2; cases h2
      | cons k2 v2 tl => rw [olen] at hle; omega
    | succ n ih =>
      intro o hle h2
      cases o with
      | nil => rw [JObj.hasKey] at h2; cases h2
      | cons k2 v2 tl =>
        rw [JObj.setKey]
        by_cases hk : k2 = k
        · rw [if_pos hk, JObj.lookup, if_pos hk]
        · rw [if_neg hk, JObj.lookup, if_neg hk]
          rw [JObj.hasKey, if_neg hk] at h2
          exact ih tl (by rw [olen] at hle; omega) h2
  exact H (olen o) o le_rfl h

theorem JObj.lookup_append_right (o : JObj) (k : Str) (v : Json)
    (h : o.hasKey k = false) :
    (o.append (.cons k v .nil)).lookup k = some v := by
  have H : ∀ (n : Nat) (o : JObj), olen o ≤ n → o.hasKey k = false →
      (o.append (.cons k v .nil)).lookup k = some v := by
    intro n
    induction n with
    | zero =>
      intro o hle h2
      cases o with
      | nil => rw [JObj.append, JObj.lookup, if_pos rfl]
      | cons k2 v2 tl => rw [olen] at hle; omega
    | succ n ih =>
      intro o hle h2
      cases o with
      | nil => rw [JObj.append, JObj.lookup, if_pos rfl]
      | cons k2 v2 tl =>
        rw [JObj.hasKey] at h2
        by_cases hk : k2 = k
        · rw [if_pos hk] at h2; cases h2
        · rw [if_neg hk] at h2
          rw [JObj.append, JObj.lookup, if_neg hk]
          exact ih tl (by rw [olen] at hle; omega) h2
  exact H (olen o) o le_rfl h

theorem JObj.lookup_upsert_self (o : JObj) (k : Str) (v : Json) :
    (JObj.upsert o k v).lookup k = some v := by
  rw [JObj.upsert]
  by_cases h : o.hasKey k = true
  · rw [if_pos h]
    exact JObj.lookup_setKey_self o k v h
  · rw [if_neg h]
    have hf : o.hasKey k = false := by
      revert h
      cases o.hasKey k <;> simp
    exact JObj.lookup_append_right o k v hf

theorem JObj.lookup_setKey_other (o : JObj) (k : Str) (v : Json) (k2 : Str)
    (h : ¬ k2 = k) : (o.setKey k v).lookup k2 = o.lookup k2 := by
  have H : ∀ (n : Nat) (o : JObj), olen o ≤ n →
      (o.setKey k v).lookup k2 = o.lookup k2 := by
    intro n
    induction n with
    | zero =>
      intro o hle
      cases o with
      | nil => rfl
      | cons k3 v3 tl => rw [olen] at hle; omega
    | succ n ih =>
      intro o hle
      cases o with
      | nil => rfl
      | cons k3 v3 tl =>
        rw [JObj.setKey]
        by_cases hk : k3 = k
        · rw [if_pos hk, JObj.lookup, JObj.lookup]
          by_cases h2 : k3 = k2
          · exact absurd (h2.symm.trans hk) h
          · rw [if_neg h2, if_neg h2]
        · rw [if_neg hk, JObj.lookup, JObj.lookup]
          by_cases h2 : k3 = k2
          · rw [if_pos h2, if_pos h2]
          · rw [if_neg h2, if_neg h2]
            exact ih tl (by rw [olen] at hle; omega)
  exact H (olen o) o le_rfl

theorem JObj.lookup_append_other (o : JObj) (k : Str) (v : Json) (k2 : Str)
    (h : ¬ k2 = k) : (o.append (.cons k v .nil)).lookup k2 = o.lookup k2 := by
  have H : ∀ (n : Nat) (o : JObj), olen o ≤ n →
      (o.append (.cons k v .nil)).lookup k2 = o.lookup k2 := by
    intro n
    induction n with
    | zero =>
      intro o hle
      cases o with
      | nil =>
        simp only [JObj.append, JObj.lookup]
        rw [if_neg (fun hh => h hh.symm)]
      | cons k3 v3 tl => rw [olen] at hle; omega
    | succ n ih =>
      intro o hle
      cases o with
      | nil =>
        simp only [JObj.append, JObj.lookup]
        rw [if_neg (fun hh => h hh.symm)]
      | cons k3 v3 tl =>
        rw [JObj.append, JObj.lookup, JObj.lookup]
        by_cases h2 : k3 = k2
        · rw [if_pos h2, if_pos h2]
        · rw [if_neg h2, if_neg h2]
          exact ih tl (by rw [olen] at hle; omega)
  exact H (olen o) o le_rfl

theorem JObj.lookup_upsert_other (o : JObj) (k : Str) (v : Json) (k2 : Str)
    (h : ¬ k2 = k) : (JObj.upsert o k v).lookup k2 = o.lookup k2 := by
  rw [JObj.upsert]
  by_cases hh : o.hasKey k = true
  · rw [if_pos hh]
    exact JObj.lookup_setKey_other o k v k2 h
  · rw [if_neg hh]
    exact JObj.lookup_append_other o k v k2 h

set_option maxRecDepth 10000

/-- Claim C3: whenever the submitted type is absent or empty, the title is
absent or empty, or the type lies outside the closed enumeration, POST
/api/log answers with a validation failure (never the created response) and
leaves the store untouched: no stream receives any bytes. -/
theorem claim_C3 (body : ReqBody) (ua ipAddr timestamp : Str) (st : Store)
    (h : truthyStr body.type? = false ∨ truthyStr body.title? = false
      ∨ ¬ (body.type?.getD []) ∈ allowedTypes) :
    (postLog body ua ipAddr timestamp st).2 = st
    ∧ ¬ (postLog body ua ipAddr timestamp st).1 = PostResp.created := by
  by_cases h1 : truthyStr body.type? = false
  · simp [postLog, h1]
  · by_cases h2 : truthyStr body.title? = false
    · simp [postLog, h2]
    · rcases h with h | h | h
      · exact absurd h h1
      · exact absurd h h2
      · have h3 : allowedTypes.contains (body.type?.getD []) = false :=
          contains_eq_false_of_not_mem h
        simp [postLog, h1, h2, h3, h]

/-- Witness for C3: a request with a valid type but no title is rejected and
writes nothing. -/
theorem claim_C3_witness :
    truthyStr (ReqBody.mk (some "log".toList) none none none).title? = false
    ∧ (postLog (ReqBody.mk (some "log".toList) none none none) [] [] []
        emptyStore).2 = emptyStore
    ∧ ¬ (postLog (ReqBody.mk (some "log".toList) none none none) [] [] []
        emptyStore).1 = PostResp.created :=
  ⟨by decide,
   (claim_C3 (ReqBody.mk (some "log".toList) none none none) [] [] [] emptyStore
     (Or.inr (Or.inl (by decide)))).1,
   (claim_C3 (ReqBody.mk (some "log".toList) none none none) [] [] [] emptyStore
     (Or.inr (Or.inl (by decide)))).2⟩

/-- Claim C4: DELETE /api/logs with the all selector truncates all four
stream files to empty and reports success; every subsequent read succeeds
with an empty list and count 0, and a second clear-all is a no-op giving the
identical response and store. -/
theorem claim_C4 (st : Store) :
    (clearLogs st (some "all".toList)).1.success = true
    ∧ (∀ (type? : Option Str) (limit : Nat),
        (apiLogs (clearLogs st (some "all".toList)).2 type? limit).success = true
        ∧ (apiLogs (clearLogs st (some "all".toList)).2 type? limit).logs = []
        ∧ (apiLogs (clearLogs st (some "all".toList)).2 type? limit).count = 0)
    ∧ clearLogs (clearLogs st (some "all".toList)).2 (some "all".toList)
        = clearLogs st (some "all".toList) := by
  refine ⟨rfl, ?_, rfl⟩
  intro type? limit
  have hgf : getFile (clearLogs st (some "all".toList)).2 (apiLogsFile type?)
      = some [] := by
    rcases type? with _ | t
    · rfl
    · rw [apiLogsFile]
      by_cases hc : ((!t.isEmpty) && allowedTypes.contains t) = true
      · rw [if_pos hc]
        have hmem : t ∈ allowedTypes := by
          rw [Bool.and_eq_true] at hc
          exact List.elem_iff.1 hc.2
        simp only [allowedTypes, List.mem_cons, List.not_mem_nil, or_false] at hmem
        rcases hmem with hh | hh | hh <;> subst hh <;> rfl
      · rw [if_neg hc]
        rfl
  simp only [apiLogs, hgf]
  rw [splitOnSeq_of_none (show firstSplit ['\n'] [] = none from rfl)]
  simp [List.filter_cons, nonblank_nil, lastN_nil]

/-- Claim C5 (amended): clearing one of the three allowed type selectors
truncates only that type's stream, succeeds, and leaves the aggregate file
and the other two typed files exactly as they were.  (The specification's
aggregate selector behaves differently: see the counterexample.) -/
theorem claim_C5 (st : Store) (t : Str) (ht : t ∈ allowedTypes) :
    (clearLogs st (some t)).1.success = true
    ∧ getFile (clearLogs st (some t)).2 (t ++ "_logs.txt".toList) = some []
    ∧ (clearLogs st (some t)).2.appLogs = st.appLogs
    ∧ ∀ u ∈ allowedTypes, ¬ u = t →
        getFile (clearLogs st (some t)).2 (u ++ "_logs.txt".toList)
          = getFile st (u ++ "_logs.txt".toList) := by
  obtain ⟨a, f, l, r⟩ := st
  simp only [allowedTypes, List.mem_cons, List.not_mem_nil, or_false] at ht
  rcases ht with h | h | h <;> subst h <;> refine ⟨rfl, rfl, rfl, ?_⟩ <;>
    · intro u hu hne
      simp only [allowedTypes, List.mem_cons, List.not_mem_nil, or_false] at hu
      rcases hu with h2 | h2 | h2 <;> subst h2 <;> first
        | exact absurd rfl hne
        | rfl

/-- Witness for C5: clearing the error stream leaves the aggregate file
untouched and empties error_logs.txt. -/
theorem claim_C5_witness :
    ("error".toList ∈ allowedTypes)
    ∧ getFile (clearLogs (setFile emptyStore "app_logs.txt".toList ['x'])
        (some "error".toList)).2 ("error".toList ++ "_logs.txt".toList) = some []
    ∧ (clearLogs (setFile emptyStore "app_logs.txt".toList ['x'])
        (some "error".toList)).2.appLogs
      = (setFile emptyStore "app_logs.txt".toList ['x']).appLogs :=
  ⟨by decide,
   (claim_C5 (setFile emptyStore "app_logs.txt".toList ['x']) "error".toList
     (by decide)).2.1,
   (claim_C5 (setFile emptyStore "app_logs.txt".toList ['x']) "error".toList
     (by decide)).2.2.1⟩

/-- Counterexample for C5: the specification's aggregate selector does not
truncate only one stream; DELETE with a non-type selector such as aggregate
clears every file, here wiping previously stored error records. -/
theorem claim_C5_counterexample :
    (clearLogs (setFile emptyStore "error_logs.txt".toList ['x'])
        (some "aggregate".toList)).1.success = true
    ∧ ¬ ((clearLogs (setFile emptyStore "error_logs.txt".toList ['x'])
        (some "aggregate".toList)).2.errorLogs
          = (setFile emptyStore "error_logs.txt".toList ['x']).errorLogs) :=
  ⟨rfl, by decide⟩

/-- Claim C6: a read whose backing file is absent or empty succeeds with an
empty list and count 0; no error outcome exists for reads. -/
theorem claim_C6 (st : Store) (type? : Option Str) (limit : Nat)
    (h : getFile st (apiLogsFile type?) = none
      ∨ getFile st (apiLogsFile type?) = some []) :
    (apiLogs st type? limit).success = true
    ∧ (apiLogs st type? limit).logs = []
    ∧ (apiLogs st type? limit).count = 0 := by
  rcases h with h | h
  · simp only [apiLogs, h]
    simp
  · simp only [apiLogs, h]
    rw [splitOnSeq_of_none (show firstSplit ['\n'] [] = none from rfl)]
    simp [List.filter_cons, nonblank_nil, lastN_nil]

/-- Witness for C6: reading a fresh directory succeeds and is empty. -/
theorem claim_C6_witness :
    (getFile emptyStore (apiLogsFile none) = none
      ∨ getFile emptyStore (apiLogsFile none) = some [])
    ∧ (apiLogs emptyStore none 5).success = true
    ∧ (apiLogs emptyStore none 5).logs = []
    ∧ (apiLogs emptyStore none 5).count = 0 :=
  ⟨Or.inl (by decide), claim_C6 emptyStore none 5 (Or.inl (by decide))⟩

/-- Claim C7: the typed view maps each kept record through a total
best-effort parser: every entry is either the structured payload recovered
by extracting and parsing the embedded JSON, or the trimmed raw record
text; no other outcome exists. -/
theorem claim_C7 (st : Store) (ty : Str) (d : Str)
    (hd : getFile st (ty ++ "_logs.txt".toList) = some d) (limit : Nat) :
    viewTypedLogs st ty limit
      = ((lastN limit ((splitOnSeq delim d).filter nonblank)).reverse).map
          entryOfRecord
    ∧ ∀ s : Str,
        (∃ m j, jsonExtract s = some m ∧ Json.parse m = some j
          ∧ entryOfRecord s = .parsed j)
        ∨ entryOfRecord s = .raw (trimStr s) := by
  constructor
  · simp only [viewTypedLogs, hd]
  · intro s
    cases hm : jsonExtract s with
    | none =>
      right
      simp only [entryOfRecord, hm]
    | some m =>
      cases hj : Json.parse m with
      | none =>
        right
        simp only [entryOfRecord, hm, hj]
      | some j =>
        left
        exact ⟨m, j, rfl, hj, by simp only [entryOfRecord, hm, hj]⟩

/-- Witness for C7: a deliberately malformed record is returned as trimmed
raw text rather than failing the read. -/
theorem claim_C7_witness :
    getFile (setFile emptyStore "error_logs.txt".toList " junk ".toList)
        ("error".toList ++ "_logs.txt".toList) = some " junk ".toList
    ∧ ((∃ m j, jsonExtract " junk ".toList = some m ∧ Json.parse m = some j
        ∧ entryOfRecord " junk ".toList = .parsed j)
      ∨ entryOfRecord " junk ".toList = .raw (trimStr " junk ".toList)) :=
  ⟨by decide,
   (claim_C7 (setFile emptyStore "error_logs.txt".toList " junk ".toList)
     "error".toList " junk ".toList (by decide) 5).2 " junk ".toList⟩

/-- Claim C9: a read with any selector outside the allowed enumeration is
not an error: it is exactly the aggregate read with no selector. -/
theorem claim_C9 (st : Store) (t : Str) (limit : Nat) (h : ¬ t ∈ allowedTypes) :
    apiLogs st (some t) limit = apiLogs st none limit := by
  have hc : allowedTypes.contains t = false := contains_eq_false_of_not_mem h
  have hf : apiLogsFile (some t) = apiLogsFile none := by
    have hcond : ((!t.isEmpty) && allowedTypes.contains t) = false := by
      rw [hc, Bool.and_false]
    rw [apiLogsFile, hcond, if_neg (by decide : ¬ false = true)]
    rfl
  simp only [apiLogs, hf]

/-- Witness for C9: an unknown selector reads the aggregate file. -/
theorem claim_C9_witness :
    ¬ "bogus".toList ∈ allowedTypes
    ∧ apiLogs emptyStore (some "bogus".toList) 3 = apiLogs emptyStore none 3 :=
  ⟨by decide, claim_C9 emptyStore "bogus".toList 3 (by decide)⟩

/-- Claim C1 (amended): an accepted event is appended in compact form to the
aggregate file and in detailed form to its type's file, both derived from
the same event; the aggregate read then contains the compact line and the
typed view's newest entry is the parsed structured payload, exactly
preserving all five fields — provided the serialized record does not itself
contain the fifty-equals delimiter and the compact line contains no newline
(see the counterexample for what happens otherwise). -/
theorem claim_C1 (st : Store) (e : Event)
    (hty : e.type ∈ allowedTypes) (hwf : StoreWF st)
    (hJ : firstSplit delim (serVal 0 (toJson e)) = none)
    (hnl : ∀ c ∈ compactBody e, ¬ c = '\n')
    (limit : Nat) (hlim : 1 ≤ limit) :
    (Logger.log st e).appLogs
        = some ((st.appLogs.getD []) ++ (compactBody e ++ ['\n']))
    ∧ getFile (Logger.log st e) (e.type ++ "_logs.txt".toList)
        = some (((getFile st (e.type ++ "_logs.txt".toList)).getD [])
            ++ detailedRecord e)
    ∧ compactBody e ∈ (apiLogs (Logger.log st e) none limit).logs
    ∧ (viewTypedLogs (Logger.log st e) e.type limit).head?
        = some (ViewEntry.parsed (toJson e)) := by
  have hA := Logger_log_appLogs st e hty
  have hT := Logger_log_typed st e hty
  refine ⟨hA, hT, ?_, ?_⟩
  · have hfile : getFile (Logger.log st e) (apiLogsFile none)
        = some ((st.appLogs.getD []) ++ (compactBody e ++ ['\n'])) := by
      rw [show apiLogsFile none = "app_logs.txt".toList from rfl, getFile_app]
      exact hA
    simp only [apiLogs, hfile]
    rw [split_agg_append _ _ (AggWF_getD hwf.1) hnl,
      filter_nonblank_concat_blank _ _ (compactBody_nonblank e) _ nonblank_nil]
    exact lastN_concat_mem hlim _ _
  · simp only [viewTypedLogs, hT]
    rw [show ((getFile st (e.type ++ "_logs.txt".toList)).getD []) ++ detailedRecord e
        = ((getFile st (e.type ++ "_logs.txt".toList)).getD [])
          ++ (serVal 0 (toJson e) ++ ['\n'] ++ delim ++ ['\n']) from by
      rw [detailedRecord]]
    rw [split_typed_append _ _ (TypedWF_getD (StoreWF_typed st e.type hty hwf)) hJ]
    have hlp := TypedWF_getD (StoreWF_typed st e.type hty hwf)
    have hnb : nonblank ((splitOnSeq delim
        ((getFile st (e.type ++ "_logs.txt".toList)).getD [])).getLastD []
          ++ (serVal 0 (toJson e) ++ ['\n'])) = true := by
      obtain ⟨mid, hm⟩ := serObj_shape (toJsonFields e)
      rw [toJson_eq, hm]
      apply nonblank_of_mem (c := '\x7b')
      · simp
      · decide
    rw [filter_nonblank_concat_blank _ _ hnb _ nonblank_nl,
      List.head?_map, lastN_concat_reverse_head hlim]
    have hrec : entryOfRecord ((splitOnSeq delim
        ((getFile st (e.type ++ "_logs.txt".toList)).getD [])).getLastD []
          ++ (serVal 0 (toJson e) ++ ['\n'])) = ViewEntry.parsed (toJson e) := by
      rw [toJson_eq]
      exact entryOfRecord_record _ hlp (toJsonFields e)
    rw [Option.map_some', hrec]

/-- Witness for C1: a plain event round-trips through both streams. -/
theorem claim_C1_witness :
    ((Event.mk "T".toList "log".toList "t".toList [] JObj.nil).type ∈ allowedTypes)
    ∧ firstSplit delim
        (serVal 0 (toJson (Event.mk "T".toList "log".toList "t".toList [] JObj.nil)))
        = none
    ∧ compactBody (Event.mk "T".toList "log".toList "t".toList [] JObj.nil)
        ∈ (apiLogs (Logger.log emptyStore
            (Event.mk "T".toList "log".toList "t".toList [] JObj.nil)) none 1).logs
    ∧ (viewTypedLogs (Logger.log emptyStore
          (Event.mk "T".toList "log".toList "t".toList [] JObj.nil))
        "log".toList 1).head?
      = some (ViewEntry.parsed
          (toJson (Event.mk "T".toList "log".toList "t".toList [] JObj.nil))) :=
  ⟨by decide, by decide,
   (claim_C1 emptyStore (Event.mk "T".toList "log".toList "t".toList [] JObj.nil)
     (by decide) emptyStore_WF (by decide) (by decide) 1 (by decide)).2.2.1,
   (claim_C1 emptyStore (Event.mk "T".toList "log".toList "t".toList [] JObj.nil)
     (by decide) emptyStore_WF (by decide) (by decide) 1 (by decide)).2.2.2⟩

/-- Counterexample for C1: a title consisting of the fifty-equals delimiter
is accepted, but the typed read then recovers no structured payload at all —
both resulting entries are raw text, so no entry equals the stored event. -/
theorem claim_C1_counterexample :
    (viewTypedLogs (Logger.log emptyStore
        (Event.mk "T".toList "log".toList delim [] JObj.nil)) "log".toList 10).all
      (fun v => !v.isParsed) = true
    ∧ (viewTypedLogs (Logger.log emptyStore
        (Event.mk "T".toList "log".toList delim [] JObj.nil)) "log".toList 10).length
      = 2 :=
  ⟨by decide, by decide⟩

/-- Claim C2 (amended): K appends to one stream from an empty directory,
read back with a positive limit, give exactly the last limit appended
entries; the dashboard views (GET /logs) reverse them newest-first, but the
GET /api/logs endpoint returns them in storage order, oldest of the kept
suffix first — not newest-first as the specification asserts (see the
counterexample). -/
theorem claim_C2 (e : Event) (es : List Event) (limit : Nat) (ty : Str)
    (hty : ty ∈ allowedTypes)
    (htys : ∀ x ∈ (e :: es), x.type = ty)
    (hnl : ∀ x ∈ (e :: es), ∀ c ∈ compactBody x, ¬ c = '\n')
    (hJ : ∀ x ∈ (e :: es), firstSplit delim (serVal 0 (toJson x)) = none)
    (hlim : 1 ≤ limit) :
    (apiLogs (appendAll emptyStore (e :: es)) none limit).logs
        = lastN limit ((e :: es).map compactBody)
    ∧ (limit ≤ (e :: es).length →
        (apiLogs (appendAll emptyStore (e :: es)) none limit).count = limit)
    ∧ viewAggLogs (appendAll emptyStore (e :: es)) limit
        = (lastN limit ((e :: es).map compactBody)).reverse
    ∧ viewTypedLogs (appendAll emptyStore (e :: es)) ty limit
        = (lastN limit ((e :: es).map
            (fun x => ViewEntry.parsed (toJson x)))).reverse := by
  have hallow : ∀ x ∈ (e :: es), x.type ∈ allowedTypes := fun x hx => by
    rw [htys x hx]
    exact hty
  have hA := appendAll_empty_appLogs e es hallow
  have hmm2 : (e :: es).map (fun x => compactBody x ++ ['\n'])
      = ((e :: es).map compactBody).map (fun b => b ++ ['\n']) := by
    simp
  have hbodies : ∀ b ∈ (e :: es).map compactBody, ∀ c ∈ b, ¬ c = '\n' := by
    intro b hb
    obtain ⟨x, hx, hxb⟩ := List.mem_map.1 hb
    subst hxb
    exact hnl x hx
  have hsplit : splitOnSeq ['\n']
      (((e :: es).map (fun x => compactBody x ++ ['\n'])).flatten)
      = (e :: es).map compactBody ++ [[]] := by
    rw [hmm2]
    exact agg_split_flatten _ hbodies
  have hfilter : ((e :: es).map compactBody ++ [[]]).filter nonblank
      = (e :: es).map compactBody :=
    filter_nonblank_bodies _ (fun b hb => by
      obtain ⟨x, hx, hxb⟩ := List.mem_map.1 hb
      subst hxb
      exact compactBody_nonblank x)
  have hfile : getFile (appendAll emptyStore (e :: es)) (apiLogsFile none)
      = some (((e :: es).map (fun x => compactBody x ++ ['\n'])).flatten) := by
    rw [show apiLogsFile none = "app_logs.txt".toList from rfl, getFile_app]
    exact hA
  refine ⟨?_, ?_, ?_, ?_⟩
  · simp only [apiLogs, hfile, hsplit, hfilter]
  · intro hK
    simp only [apiLogs, hfile, hsplit, hfilter]
    exact lastN_length hlim _ (by rw [List.length_map]; exact hK)
  · simp only [viewAggLogs, hA, hsplit, hfilter]
  · have hT := appendAll_empty_typed ty e es htys hallow
    simp only [viewTypedLogs, hT]
    have hent := typed_entries (e :: es) hJ [] (Or.inl rfl)
    rw [List.nil_append] at hent
    rw [List.map_reverse, ← lastN_map, hent]

/-- Witness for C2: three appends read with limit 2 keep the last two in
storage order. -/
theorem claim_C2_witness :
    (apiLogs (appendAll emptyStore
        [Event.mk "T".toList "log".toList "a".toList [] JObj.nil,
         Event.mk "T".toList "log".toList "b".toList [] JObj.nil,
         Event.mk "T".toList "log".toList "c".toList [] JObj.nil]) none 2).logs
      = lastN 2 ([Event.mk "T".toList "log".toList "a".toList [] JObj.nil,
         Event.mk "T".toList "log".toList "b".toList [] JObj.nil,
         Event.mk "T".toList "log".toList "c".toList [] JObj.nil].map compactBody)
    ∧ (apiLogs (appendAll emptyStore
        [Event.mk "T".toList "log".toList "a".toList [] JObj.nil,
         Event.mk "T".toList "log".toList "b".toList [] JObj.nil,
         Event.mk "T".toList "log".toList "c".toList [] JObj.nil]) none 2).count = 2 :=
  ⟨(claim_C2 (Event.mk "T".toList "log".toList "a".toList [] JObj.nil)
      [Event.mk "T".toList "log".toList "b".toList [] JObj.nil,
       Event.mk "T".toList "log".toList "c".toList [] JObj.nil] 2 "log".toList
      (by decide) (by decide) (by decide) (by decide) (by decide)).1,
   (claim_C2 (Event.mk "T".toList "log".toList "a".toList [] JObj.nil)
      [Event.mk "T".toList "log".toList "b".toList [] JObj.nil,
       Event.mk "T".toList "log".toList "c".toList [] JObj.nil] 2 "log".toList
      (by decide) (by decide) (by decide) (by decide) (by decide)).2.1 (by decide)⟩

/-- Counterexample for C2: after appending titles a, b, c, GET /api/logs
with limit 2 returns the compact lines of b then c — the last two appends in
storage order, so the first returned entry is not the most recent one. -/
theorem claim_C2_counterexample :
    (apiLogs (appendAll emptyStore
        [Event.mk "T".toList "log".toList "a".toList [] JObj.nil,
         Event.mk "T".toList "log".toList "b".toList [] JObj.nil,
         Event.mk "T".toList "log".toList "c".toList [] JObj.nil]) none 2).logs
      = ["[T] [LOG] b".toList, "[T] [LOG] c".toList]
    ∧ ¬ ("[T] [LOG] b".toList : Str) = "[T] [LOG] c".toList :=
  ⟨by decide, by decide⟩

/-- Claim C10: the stored event's metadata is the caller's mapping with the
three server-derived keys userAgent, ip and source written last, each
overwriting any caller-supplied value of the same name; all other caller
keys are preserved. -/
theorem claim_C10 (body : ReqBody) (ua ipAddr timestamp : Str) (st : Store)
    (h : (postLog body ua ipAddr timestamp st).1 = PostResp.created) :
    (postLog body ua ipAddr timestamp st).2
        = Logger.log st
            (Event.mk timestamp (body.type?.getD []) (body.title?.getD [])
              (body.description?.getD [])
              (mergeMetadata (body.metadata?.getD .nil) ua ipAddr))
    ∧ (mergeMetadata (body.metadata?.getD .nil) ua ipAddr).lookup
        "userAgent".toList = some (.str ua)
    ∧ (mergeMetadata (body.metadata?.getD .nil) ua ipAddr).lookup
        "ip".toList = some (.str ipAddr)
    ∧ (mergeMetadata (body.metadata?.getD .nil) ua ipAddr).lookup
        "source".toList = some (.str "react-native-app".toList)
    ∧ ∀ k, ¬ k = "userAgent".toList → ¬ k = "ip".toList → ¬ k = "source".toList →
        (mergeMetadata (body.metadata?.getD .nil) ua ipAddr).lookup k
          = (body.metadata?.getD .nil).lookup k := by
  refine ⟨?_, ?_, ?_, ?_, ?_⟩
  · by_cases h1 : truthyStr body.type? = false
    · exfalso
      revert h
      simp [postLog, h1]
    · by_cases h2 : truthyStr body.title? = false
      · exfalso
        revert h
        simp [postLog, h1, h2]
      · by_cases h3 : (body.type?.getD []) ∈ allowedTypes
        · simp [postLog, h1, h2, h3]
        · exfalso
          revert h
          have hc : allowedTypes.contains (body.type?.getD []) = false :=
            contains_eq_false_of_not_mem h3
          simp [postLog, h1, h2, hc, h3]
  · rw [mergeMetadata,
      JObj.lookup_upsert_other _ _ _ _ (by decide),
      JObj.lookup_upsert_other _ _ _ _ (by decide),
      JObj.lookup_upsert_self]
  · rw [mergeMetadata,
      JObj.lookup_upsert_other _ _ _ _ (by decide),
      JObj.lookup_upsert_self]
  · rw [mergeMetadata, JObj.lookup_upsert_self]
  · intro k hk1 hk2 hk3
    rw [mergeMetadata,
      JObj.lookup_upsert_other _ _ _ _ hk3,
      JObj.lookup_upsert_other _ _ _ _ hk2,
      JObj.lookup_upsert_other _ _ _ _ hk1]

theorem matchAt_eq_none {c : Char} {rest : Str} (hc : ¬ c = '\\') :
    matchAt (c :: rest) = none := by
  rcases rest with _ | ⟨c1, _ | ⟨sp1, _ | ⟨b2, _ | ⟨c2, _ | ⟨sp2, r⟩⟩⟩⟩⟩
  · rfl
  · rfl
  · rfl
  · rfl
  · rfl
  · simp [matchAt, hc]

/-- A line containing no backslash is never matched by the executing
regex: every match must begin with a literal backslash. -/
theorem matchCompact_eq_none {s : Str} (h : ¬ '\\' ∈ s) :
    matchCompact s = none := by
  induction s with
  | nil => rfl
  | cons c rest ih =>
    rw [matchCompact]
    have hc : ¬ c = '\\' := fun hh => h (by rw [hh]; exact List.mem_cons_self _ _)
    rw [matchAt_eq_none hc]
    exact ih (fun hm => h (List.mem_cons_of_mem c hm))

/-- Claim C8 (code bug): the dashboard's compact-line pattern is a regex
literal whose doubled backslashes match literal backslash characters, so it
never matches a backslash-free line; every such string entry -- including
every line of the spec's textual form `[<timestamp>] [<TYPE>] <title>` -- is
rendered opaque with the raw line as its title, and the structured-fields
branch the specification describes is unreachable for them. -/
theorem claim_C8 (s : Str) (h : ¬ '\\' ∈ s) :
    renderStringLog s = .plain s := by
  rw [renderStringLog, matchCompact_eq_none h]

/-- Witness for C8: a well-formed compact line, which the specification says
is parsed into structured fields, is rendered opaque by the code. -/
theorem claim_C8_witness :
    ¬ '\\' ∈ "[2024-01-01T00:00:00.000Z] [LOG] hello".toList
    ∧ renderStringLog "[2024-01-01T00:00:00.000Z] [LOG] hello".toList
      = RenderedLine.plain "[2024-01-01T00:00:00.000Z] [LOG] hello".toList :=
  ⟨by decide, claim_C8 "[2024-01-01T00:00:00.000Z] [LOG] hello".toList (by decide)⟩

/-- Witness for C10: a caller-supplied userAgent value is overwritten by the
server's value in the stored metadata. -/
theorem claim_C10_witness :
    (postLog (ReqBody.mk (some "log".toList) (some "t".toList) none
        (some (JObj.cons "userAgent".toList (.str "EVIL".toList) JObj.nil)))
      "UA".toList "IP".toList "TS".toList emptyStore).1 = PostResp.created
    ∧ (mergeMetadata ((ReqBody.mk (some "log".toList) (some "t".toList) none
        (some (JObj.cons "userAgent".toList (.str "EVIL".toList)
          JObj.nil))).metadata?.getD .nil) "UA".toList "IP".toList).lookup
        "userAgent".toList = some (.str "UA".toList) :=
  ⟨rfl,
   (claim_C10 (ReqBody.mk (some "log".toList) (some "t".toList) none
       (some (JObj.cons "userAgent".toList (.str "EVIL".toList) JObj.nil)))
     "UA".toList "IP".toList "TS".toList emptyStore rfl).2.1⟩

end Nogger
